import Mathlib

/-!
duplicate_file_handler: a verification development of `main.go`.

A shallow embedding of `main.go`: the catalog operations (`Files.Sort`,
`Files.MapDuplicates`, `Files.DeleteFiles`), the scan (`MapFiles`), the listings
(`PrintFilesSizes`, `PrintDuplicates`) and the input loops (`ScanSortingOption`, the
selection line of `ScanDeleteFiles`), together with theorems about them.

Modelling conventions.

* A Go slice of `File` is a `List File`; a method that sorts in place and returns
  its receiver is a function returning the sorted list.
* `int` and `int64` are integers in two's complement, 64 bits wide; arithmetic that
  can leave that range is wrapped explicitly with `wrapInt`.
* `map[string][]File` is an association list with distinct keys.  Go visits the keys
  of a map in an unspecified order, so the order in which `range` presents them is an
  explicit argument `keys`, constrained by `RangeOrder`.
* `os.Remove` acts on an explicit `FileSystem` state that also records every call.
* `sort.Slice` is library code: `sortSlice` is an executable comparison sort driven
  by the caller's `less`, and `SliceSorted` is the contract every implementation of
  `sort.Slice` meets.
* Go compares strings byte by byte; on UTF-8 text that is the order of the code
  points, which is the order of `String` used here.
* The id counter of `MapDuplicates` counts the records of a slice and so stays far
  inside the range of `int`; it is not wrapped.
* `filepath.WalkDir` is library code: a walk is the list of the calls it makes to the
  callback, each with what the file system answers for that path (`Visit`).
* Standard output is a list of `OutputLine`, one constructor per print statement.
* An input loop that never ends, because the input is exhausted before an entry is
  accepted, yields `none`.
-/

namespace DuplicateFileHandler

/-! ## Data model -/

/-- The Go type `SortOption`, an `int`. -/
abbrev SortOption := Int

/-- The constant `Descending` (`iota` = 0). -/
def Descending : SortOption := 0

/-- The constant `Ascending` (`iota` = 1). -/
def Ascending : SortOption := 1

/-- The Go struct `File`: `Name string; Size int64; Hash string; id int`. -/
structure File where
  Name : String
  Size : Int
  Hash : String
  id : Int
  deriving DecidableEq, Repr

/-- The Go function `NewFile`: a record whose display id is 0. -/
def NewFile (name : String) (size : Int) (hash : String) : File :=
  { Name := name, Size := size, Hash := hash, id := 0 }

/-- The Go type `Files`, a slice of `File`. -/
abbrev Files := List File

/-- A record with its display id reset to 0: the part of a record that the scan
produced. -/
def File.eraseId (r : File) : File := { r with id := 0 }

/-- Two's complement wrap-around of a 64-bit signed integer. -/
def wrapInt (x : Int) : Int := (x + 2 ^ 63) % 2 ^ 64 - 2 ^ 63

/-- The pair test of line 78: `file.Name != file2.Name && file.Size == file2.Size &&
file.Hash == file2.Hash`. -/
def isPartner (file file2 : File) : Bool :=
  file.Name != file2.Name && file.Size == file2.Size && file.Hash == file2.Hash

/-! ## `Files.Sort` -/

/-- The `less` closure of `Files.Descending` (lines 37-45), on the two records it
compares. -/
def descLess (a b : File) : Bool :=
  if a.Size = b.Size then
    if a.Hash = b.Hash then
      decide (a.Name > b.Name)
    else
      decide (a.Hash > b.Hash)
  else
    decide (a.Size > b.Size)

/-- The `less` closure of `Files.Ascending` (lines 50-58), on the two records it
compares. -/
def ascLess (a b : File) : Bool :=
  if a.Size = b.Size then
    if a.Hash = b.Hash then
      decide (a.Name < b.Name)
    else
      decide (a.Hash < b.Hash)
  else
    decide (a.Size < b.Size)

/-- Insert a record into a sorted list, in front of the first record that it is
`less` than. -/
def insertSorted (less : File → File → Bool) (x : File) : List File → List File
  | [] => [x]
  | y :: ys => if less x y then x :: y :: ys else y :: insertSorted less x ys

/-- The library call `sort.Slice(f, less)`, as an insertion sort.  Go promises a
sorted rearrangement and no stability; `SliceSorted` states that promise. -/
def sortSlice (less : File → File → Bool) : List File → List File
  | [] => []
  | x :: xs => insertSorted less x (sortSlice less xs)

/-- What `sort.Slice` promises about its result `out` for the slice `input`: a
rearrangement of `input` in which no record is `less` than a record before it. -/
def SliceSorted (less : File → File → Bool) (input out : List File) : Prop :=
  out.Perm input ∧ out.Pairwise (fun a b => less b a = false)

/-- The Go method `Files.Descending`. -/
def Files.Descending (f : Files) : Files := sortSlice descLess f

/-- The Go method `Files.Ascending`. -/
def Files.Ascending (f : Files) : Files := sortSlice ascLess f

/-- The Go method `Files.Sort`: the `switch` on the option, with its `default` arm. -/
def Files.Sort (f : Files) (option : SortOption) : Files :=
  if option = DuplicateFileHandler.Descending then
    Files.Descending f
  else if option = DuplicateFileHandler.Ascending then
    Files.Ascending f
  else
    Files.Descending f

/-- The three sort keys of a record in order of precedence, compared
lexicographically. -/
def sortKey (a : File) : Lex (Int × Lex (String × String)) :=
  toLex (a.Size, toLex (a.Hash, a.Name))

/-- The order that a descending sort leaves between a record and a later one. -/
def DescOrdered (a b : File) : Prop :=
  a.Size > b.Size ∨ (a.Size = b.Size ∧ a.Hash > b.Hash) ∨
    (a.Size = b.Size ∧ a.Hash = b.Hash ∧ a.Name ≥ b.Name)

/-- The order that an ascending sort leaves between a record and a later one. -/
def AscOrdered (a b : File) : Prop :=
  a.Size < b.Size ∨ (a.Size = b.Size ∧ a.Hash < b.Hash) ∨
    (a.Size = b.Size ∧ a.Hash = b.Hash ∧ a.Name ≤ b.Name)

/-! ## `Files.MapDuplicates` -/

/-- The Go map `map[string][]File` as an association list. -/
abbrev DupMap := List (String × List File)

/-- The map read `duplicates[k]`; an absent key reads as the nil slice. -/
def DupMap.get : DupMap → String → List File
  | [], _ => []
  | (k', v') :: m, k => if k' = k then v' else DupMap.get m k

/-- The map write `duplicates[k] = v`. -/
def DupMap.set : DupMap → String → List File → DupMap
  | [], k, v => [(k, v)]
  | (k', v') :: m, k, v => if k' = k then (k, v) :: m else (k', v') :: DupMap.set m k v

/-- The keys held by the map. -/
def DupMap.keys (m : DupMap) : List String := m.map Prod.fst

/-- The inner loop of lines 77-82: scan `f` for a partner of `file`; at the first one
append `file` to `duplicates[file.Hash]` and `break`. -/
def partnerLoop (file : File) : List File → DupMap → DupMap
  | [], m => m
  | file2 :: rest, m =>
    if isPartner file file2 then
      m.set file.Hash (m.get file.Hash ++ [file])
    else
      partnerLoop file rest m

/-- The outer loop of lines 76-83 over the records still to visit; the inner loop
always scans the whole catalog `f`. -/
def collectLoop (f : Files) : List File → DupMap → DupMap
  | [], m => m
  | file :: rest, m => collectLoop f rest (partnerLoop file f m)

/-- The map `duplicates` as it stands after the first loop nest. -/
def collectDuplicates (f : Files) : DupMap := collectLoop f f []

/-- The inner loop of lines 87-91: stamp the records of one map entry with the
running id and append them to `duplicatedFiles`. -/
def numberLoop : List File → Int → List File → Int × List File
  | [], id, out => (id, out)
  | file :: rest, id, out => numberLoop rest (id + 1) (out ++ [{ file with id := id }])

/-- The outer loop of lines 86-92 over the keys in the order `range` presents them. -/
def rangeLoop (m : DupMap) : List String → Int → List File → Int × List File
  | [], id, out => (id, out)
  | value :: rest, id, out =>
    let step := numberLoop (m.get value) id out
    rangeLoop m rest step.1 step.2

/-- The keys of `duplicates` in an order that `range` may present: every key once. -/
def RangeOrder (f : Files) (keys : List String) : Prop :=
  keys.Perm (collectDuplicates f).keys

instance (f : Files) (keys : List String) : Decidable (RangeOrder f keys) := by
  unfold RangeOrder; infer_instance

/-- The Go method `Files.MapDuplicates`, with the order in which `range duplicates`
presents the keys made explicit. -/
def MapDuplicates (f : Files) (keys : List String) : Files :=
  (rangeLoop (collectDuplicates f) keys 1 []).2

/-- A record has a partner in `f`: some record of `f` with a different `Name`, the
same `Size` and the same `Hash`. -/
def hasPartner (f : Files) (r : File) : Prop :=
  ∃ p ∈ f, p.Name ≠ r.Name ∧ p.Size = r.Size ∧ p.Hash = r.Hash

instance (f : Files) (r : File) : Decidable (hasPartner f r) := by
  unfold hasPartner; infer_instance

/-- The records of `f` that have a partner, in catalog order. -/
def duplicatesOf (f : Files) : Files := f.filter (fun r => decide (hasPartner f r))

/-- Append each record of a list to the map entry of its `Hash`, in list order. -/
def pushAll : List File → DupMap → DupMap
  | [], m => m
  | x :: xs, m => pushAll xs (m.set x.Hash (m.get x.Hash ++ [x]))

/-- Stamp the records of a list with consecutive ids starting at `id`. -/
def stamp : Int → List File → List File
  | _, [] => []
  | id, x :: xs => { x with id := id } :: stamp (id + 1) xs

/-- The records of a list that carry the hash `k`. -/
def withHash (k : String) (l : List File) : List File := l.filter (fun x => decide (x.Hash = k))

/-- The display ids, in output order, of the records of `out` that share the pair
`(size, hash)`. -/
def idsOfSet (out : Files) (size : Int) (hash : String) : List Int :=
  (out.filter (fun r => decide (r.Size = size ∧ r.Hash = hash))).map File.id

/-- The display ids, in output order, of the records of `out` that carry `hash`. -/
def idsOfHash (out : Files) (hash : String) : List Int :=
  (out.filter (fun r => decide (r.Hash = hash))).map File.id

/-- A list of ids is a contiguous run of distinct positive integers: with `k` members
of which `m` is the smallest, its members are exactly `m, m+1, ..., m+k-1`. -/
def ContiguousRun (ids : List Int) : Prop :=
  ids.Nodup ∧ (∀ x ∈ ids, 0 < x) ∧
    ∀ m ∈ ids, (∀ x ∈ ids, m ≤ x) → ∀ n : Int, n ∈ ids ↔ (m ≤ n ∧ n < m + (ids.length : Int))

/-- A catalog is ordered by size, upwards or downwards: what `Sort` leaves. -/
def SizeSorted (l : List File) : Prop :=
  l.Pairwise (fun a b => a.Size ≤ b.Size) ∨ l.Pairwise (fun a b => b.Size ≤ a.Size)

instance (l : List File) : Decidable (SizeSorted l) := by
  unfold SizeSorted; infer_instance

/-! ## `Files.DeleteFiles` -/

/-- The error values of `os.Remove` that the model tells apart. -/
inductive RemoveError where
  | notExist (path : String)
  | permission (path : String)
  deriving DecidableEq, Repr

/-- The file system as `os.Remove` sees it: the paths that exist, the paths whose
removal the system refuses, and the log of the `os.Remove` calls made so far (oldest
first). -/
structure FileSystem where
  present : List String
  locked : List String
  removeCalls : List String
  deriving DecidableEq, Repr

/-- The library call `os.Remove(path)`: the error it returns (`none` is Go's `nil`)
and the file system it leaves. -/
def osRemove (fs : FileSystem) (path : String) : Option RemoveError × FileSystem :=
  if path ∈ fs.present then
    if path ∈ fs.locked then
      (some (RemoveError.permission path),
        { fs with removeCalls := fs.removeCalls ++ [path] })
    else
      (none,
        { fs with
          present := fs.present.filter (fun p => decide (p ≠ path))
          removeCalls := fs.removeCalls ++ [path] })
  else
    (some (RemoveError.notExist path), { fs with removeCalls := fs.removeCalls ++ [path] })

/-- The inner loop of lines 100-108 for one `fileNumber`: remove every record of `f`
whose id equals it, adding `int(file.Size)` to `freeSize`; the first failed removal
leaves the loop with the error. -/
def removeLoop (fileNumber : Int) :
    List File → Int → FileSystem → Except RemoveError Int × FileSystem
  | [], freeSize, fs => (Except.ok freeSize, fs)
  | file :: rest, freeSize, fs =>
    if file.id = fileNumber then
      match osRemove fs file.Name with
      | (some err, fs1) => (Except.error err, fs1)
      | (none, fs1) => removeLoop fileNumber rest (wrapInt (freeSize + wrapInt file.Size)) fs1
    else
      removeLoop fileNumber rest freeSize fs

/-- The outer loop of lines 99-109 over the ids still to process; an error of the
inner loop is the statement `return 0, err`. -/
def deleteLoop (f : Files) :
    List Int → Int → FileSystem → (Int × Option RemoveError) × FileSystem
  | [], freeSize, fs => ((freeSize, none), fs)
  | fileNumber :: rest, freeSize, fs =>
    match removeLoop fileNumber f freeSize fs with
    | (Except.error err, fs1) => ((0, some err), fs1)
    | (Except.ok freeSize1, fs1) => deleteLoop f rest freeSize1 fs1

/-- The Go method `Files.DeleteFiles`: the pair `(int, error)` it returns and the file
system it leaves. -/
def DeleteFiles (f : Files) (filesToDelete : List Int) (fs : FileSystem) :
    (Int × Option RemoveError) × FileSystem :=
  deleteLoop f filesToDelete 0 fs

/-- The records that the id list selects, in the order `DeleteFiles` meets them: for
each id in turn, the records of `f` carrying it. -/
def matched (f : Files) (ids : List Int) : List File :=
  ids.flatMap (fun n => f.filter (fun r => decide (r.id = n)))

/-- Remove the paths one after the other: the file system after the last removal,
or `none` as soon as one removal fails. -/
def removeAll : FileSystem → List String → Option FileSystem
  | fs, [] => some fs
  | fs, p :: ps =>
    match osRemove fs p with
    | (none, fs1) => removeAll fs1 ps
    | (some _, _) => none

/-- Remove the records of a list in order, accumulating `freeSize`, up to the first
failure. -/
def sweep : List File → Int → FileSystem → Except RemoveError Int × FileSystem
  | [], freeSize, fs => (Except.ok freeSize, fs)
  | file :: rest, freeSize, fs =>
    match osRemove fs file.Name with
    | (some err, fs1) => (Except.error err, fs1)
    | (none, fs1) => sweep rest (wrapInt (freeSize + wrapInt file.Size)) fs1

/-- The value of `freeSize` after adding the sizes of a list of records. -/
def addSizes : List File → Int → Int
  | [], freeSize => freeSize
  | file :: rest, freeSize => addSizes rest (wrapInt (freeSize + wrapInt file.Size))

/-- The result of `DeleteFiles` that corresponds to an outcome of the loops. -/
def finish : Except RemoveError Int × FileSystem → (Int × Option RemoveError) × FileSystem
  | (Except.error err, fs) => ((0, some err), fs)
  | (Except.ok freeSize, fs) => ((freeSize, none), fs)

/-! ## `PrintFilesSizes` and `PrintDuplicates` -/

/-- A line written to standard output, by the statement that writes it. -/
inductive OutputLine where
  /-- The line of `fmt.Printf("%v bytes\n", file.Size)`. -/
  | sizeHeader (size : Int)
  /-- The line of `fmt.Printf("Hash: %v\n", file.Hash)`. -/
  | hashHeader (hash : String)
  /-- The line of `fmt.Println(file.Name)`. -/
  | path (name : String)
  /-- The line of `fmt.Printf("%v. %v\n", file.id, file.Name)`. -/
  | entry (id : Int) (name : String)
  /-- A fixed message. -/
  | message (text : String)
  deriving DecidableEq, Repr

/-- The loop of `PrintFilesSizes` (lines 240-246) from a given value of `sizeControl`. -/
def printSizesLoop : List File → Int → List OutputLine
  | [], _ => []
  | file :: rest, sizeControl =>
    if sizeControl ≠ wrapInt file.Size then
      OutputLine.sizeHeader file.Size :: OutputLine.path file.Name ::
        printSizesLoop rest (wrapInt file.Size)
    else
      OutputLine.path file.Name :: printSizesLoop rest sizeControl

/-- The Go function `PrintFilesSizes`: `sizeControl` starts at 0. -/
def PrintFilesSizes (files : Files) : List OutputLine := printSizesLoop files 0

/-- The loop of `PrintDuplicates` (lines 225-235) from given values of `sizeControl`
and `hashControl`. -/
def printDuplicatesLoop : List File → Int → String → List OutputLine
  | [], _, _ => []
  | file :: rest, sizeControl, hashControl =>
    (if sizeControl ≠ wrapInt file.Size then [OutputLine.sizeHeader file.Size] else []) ++
    (if hashControl ≠ file.Hash then [OutputLine.hashHeader file.Hash] else []) ++
    OutputLine.entry file.id file.Name ::
      printDuplicatesLoop rest
        (if sizeControl ≠ wrapInt file.Size then wrapInt file.Size else sizeControl)
        (if hashControl ≠ file.Hash then file.Hash else hashControl)

/-- The Go function `PrintDuplicates`: `sizeControl` starts at 0 and `hashControl` at
the empty string. -/
def PrintDuplicates (files : Files) : List OutputLine := printDuplicatesLoop files 0 ""

/-! ## `MapFiles` -/

/-- The error values that end a walk: the error `filepath.WalkDir` hands to the
callback for an entry it cannot read, and the error of `io.Copy` on a file. -/
inductive WalkError where
  | walk (path : String)
  | read (path : String)
  deriving DecidableEq, Repr

/-- One call that `filepath.WalkDir` makes to the callback, with what the file system
answers for that path: the error handed to the callback, whether the entry is a
directory, the size that `os.Stat` reports (`none` when `os.Stat` fails) and the
hexadecimal MD5 digest of the content (`none` when `os.Open` or `io.Copy` fails). -/
structure Visit where
  path : String
  isDir : Bool
  walkErr : Option WalkError
  statSize : Option Int
  digest : Option String
  deriving DecidableEq, Repr

/-- The loop of the library call `filepath.Ext`, from the last character backwards:
`before` holds the characters still to scan, nearest first, and `suffix` the
characters already passed. -/
def extLoop : List Char → List Char → List Char
  | [], _ => []
  | c :: before, suffix =>
    if c.toNat = 47 then
      []
    else if c.toNat = 46 then
      c :: suffix
    else
      extLoop before (c :: suffix)

/-- The library call `filepath.Ext`, with `/` as the path separator. -/
def Ext (path : String) : String := String.mk (extLoop path.data.reverse [])

/-- What one call of the callback does to the walk. -/
inductive WalkStep where
  /-- The callback returned nil. -/
  | next (files : Files)
  /-- The callback returned an error. -/
  | stop (files : Files) (err : WalkError)
  /-- The callback called `Size` on the nil result of a failed `os.Stat`. -/
  | crash
  deriving DecidableEq, Repr

/-- The callback of lines 195-217, applied to one visit with the catalog gathered so
far. -/
def visitEntry (extention : String) (v : Visit) (files : Files) : WalkStep :=
  match v.walkErr with
  | some err => WalkStep.stop files err
  | none =>
    if !v.isDir then
      if extention ≠ "" ∧ Ext v.path ≠ "." ++ extention then
        WalkStep.next files
      else
        match v.digest with
        | none => WalkStep.stop files (WalkError.read v.path)
        | some hashString =>
          match v.statSize with
          | none => WalkStep.crash
          | some fileSize => WalkStep.next (files ++ [NewFile v.path fileSize hashString])
    else
      WalkStep.next files

/-- The library call `filepath.WalkDir` driving the callback over the visits in walk
order: the first error returned by the callback ends the walk.  The result is the
pair `(files, err)` of line 218, or `none` when the program crashed. -/
def walkDir (extention : String) : List Visit → Files → Option (Files × Option WalkError)
  | [], files => some (files, none)
  | v :: rest, files =>
    match visitEntry extention v files with
    | WalkStep.next files1 => walkDir extention rest files1
    | WalkStep.stop files1 err => some (files1, some err)
    | WalkStep.crash => none

/-- The Go function `MapFiles`: the variable `files` starts as the nil slice. -/
def MapFiles (visits : List Visit) (extention : String) : Option (Files × Option WalkError) :=
  walkDir extention visits []

/-- The lines 258-266 of `main`: scan, give up with a message when `MapFiles` returns an
error, otherwise sort and list the catalog; `none` when the program crashed. -/
def mainListing (visits : List Visit) (inputFormat : String) (sortingOption : Int) :
    Option (List OutputLine) :=
  match MapFiles visits inputFormat with
  | none => none
  | some (_, some _) => some [OutputLine.message "Directory is not specified"]
  | some (files, none) => some (PrintFilesSizes (Files.Sort files sortingOption))

/-- The visit of a readable regular file. -/
def fileVisit (path : String) (size : Int) (digest : String) : Visit :=
  { path := path, isDir := false, walkErr := none, statSize := some size, digest := some digest }

/-- The visit of a readable directory. -/
def dirVisit (path : String) : Visit :=
  { path := path, isDir := true, walkErr := none, statSize := some 4096, digest := none }

/-- The record that a visit contributes when it passes the filter. -/
def recordOf (v : Visit) : File :=
  NewFile v.path (v.statSize.getD 0) (v.digest.getD "")

/-- The filter of line 200 lets the path through. -/
def passesFilter (extention : String) (path : String) : Prop :=
  extention = "" ∨ Ext path = "." ++ extention

instance (extention path : String) : Decidable (passesFilter extention path) := by
  unfold passesFilter; infer_instance

/-! ## `ScanDeleteFiles`: the selection line -/

/-- The library predicate `unicode.IsSpace`, on the code point of a character. -/
def isSpace (c : Char) : Bool :=
  decide (c.toNat = 9 ∨ c.toNat = 10 ∨ c.toNat = 11 ∨ c.toNat = 12 ∨ c.toNat = 13 ∨
    c.toNat = 32 ∨ c.toNat = 133 ∨ c.toNat = 160 ∨ c.toNat = 5760 ∨
    (8192 ≤ c.toNat ∧ c.toNat ≤ 8202) ∨ c.toNat = 8232 ∨ c.toNat = 8233 ∨
    c.toNat = 8239 ∨ c.toNat = 8287 ∨ c.toNat = 12288)

/-- The library call `strings.TrimSpace`: drop the leading and the trailing white
space. -/
def trimSpace (s : List Char) : List Char :=
  ((s.dropWhile isSpace).reverse.dropWhile isSpace).reverse

/-- The library call `strings.Split(input, " ")`: the pieces between the spaces; a
string without a space, the empty string included, is a single piece. -/
def splitSpaces : List Char → List (List Char)
  | [] => [[]]
  | c :: cs =>
    if c.toNat = 32 then
      [] :: splitSpaces cs
    else
      match splitSpaces cs with
      | [] => [[c]]
      | piece :: pieces => (c :: piece) :: pieces

/-- The value of a string of decimal digits appended to `acc`, `none` when a character
is not a digit. -/
def digitsValue : List Char → Nat → Option Nat
  | [], acc => some acc
  | c :: cs, acc =>
    if 48 ≤ c.toNat ∧ c.toNat ≤ 57 then
      digitsValue cs (acc * 10 + (c.toNat - 48))
    else
      none

/-- The library call `strconv.Atoi`: an optional sign and at least one decimal digit,
the value inside the range of `int`; `none` stands for a non-nil error. -/
def atoi (s : List Char) : Option Int :=
  match s with
  | [] => none
  | c :: cs =>
    let digits := if c.toNat = 45 ∨ c.toNat = 43 then cs else c :: cs
    if digits = [] then
      none
    else
      match digitsValue digits 0 with
      | none => none
      | some n =>
        let v : Int := if c.toNat = 45 then -(n : Int) else (n : Int)
        if -2 ^ 63 ≤ v ∧ v < 2 ^ 63 then some v else none

/-- The loop of lines 170-184 over the pieces of one input line, for a duplicate list
of `count` records.  The slice `filesToDelete` is a list, the nil slice being `[]`.
A piece that is no integer leaves the loop by `break`; a number out of range sets
`filesToDelete` to nil and leaves the loop. -/
def selectionLoop (count : Int) : List (List Char) → List Int → List Int
  | [], filesToDelete => filesToDelete
  | num :: rest, filesToDelete =>
    match atoi (trimSpace num) with
    | none => filesToDelete
    | some fileNumber =>
      if fileNumber > 0 ∧ fileNumber ≤ count then
        selectionLoop count rest (filesToDelete ++ [fileNumber])
      else
        []

/-- The loop of lines 165-185 over the lines that the scanner delivers, and the
`return` of line 186.  A line after which `filesToDelete` is nil is followed by a
new prompt.  At the end of the input the scanner delivers the empty text for ever
and the loop does not end: `none`. -/
def scanSelection (count : Int) : List String → Option (List Int)
  | [] => none
  | input :: rest =>
    match selectionLoop count (splitSpaces input.data) [] with
    | [] => scanSelection count rest
    | id :: ids => some (id :: ids)

/-- Every piece of a line parses as an integer between 1 and `count`: the lines that
the specification accepts. -/
def validLine (count : Int) (input : String) : Prop :=
  ∀ num ∈ splitSpaces input.data,
    ∃ v : Int, atoi (trimSpace num) = some v ∧ 1 ≤ v ∧ v ≤ count

/-! ## `ScanSortingOption` -/

/-- The loop of lines 128-134 and the `return` of line 135.  The input is the sequence
of outcomes of the calls `fmt.Scan(&sortingOption)`: `some v` stores `v` in the
variable, `none` is a failed scan, which leaves the variable as it was.  When the
input ends while the variable is neither 1 nor 2, the loop never ends: `none`. -/
def scanSortingLoop : List (Option Int) → Int → Option Int
  | [], sortingOption =>
    if sortingOption ≠ 1 ∧ sortingOption ≠ 2 then none else some (sortingOption - 1)
  | scan :: rest, sortingOption =>
    if sortingOption ≠ 1 ∧ sortingOption ≠ 2 then
      scanSortingLoop rest (scan.getD sortingOption)
    else
      some (sortingOption - 1)

/-- The Go function `ScanSortingOption`: the variable starts at 0. -/
def ScanSortingOption (scans : List (Option Int)) : Option Int :=
  scanSortingLoop scans 0

/-! ## Example catalogs -/

/-- A walk over a directory `d` that holds `a.txt`, `b.TXT` and `c.md`. -/
def sampleWalk : List Visit :=
  [dirVisit "d", fileVisit "d/a.txt" 1 "x", fileVisit "d/b.TXT" 1 "x", fileVisit "d/c.md" 2 "y"]

/-- A walk in which `d/a.txt` is read and `d/b.txt` cannot be read. -/
def brokenWalk : List Visit :=
  [dirVisit "d", fileVisit "d/a.txt" 1 "x",
   { path := "d/b.txt", isDir := false, walkErr := none, statSize := some 1, digest := none },
   fileVisit "d/c.txt" 2 "y"]

/-- The digest that `MapFiles` computes for an empty file. -/
def emptyDigest : String := "d41d8cd98f00b204e9800998ecf8427e"

/-- Three duplicate sets in the order that `Sort(Descending)` leaves: `b`, `a` of two
bytes with the digest `y`, `d`, `c` of two bytes with the digest `x`, and `f`, `e`
of one byte with the digest `z`. -/
def threeGroups : Files :=
  [NewFile "b" 2 "y", NewFile "a" 2 "y", NewFile "d" 2 "x", NewFile "c" 2 "x",
   NewFile "f" 1 "z", NewFile "e" 1 "z"]

/-- Two duplicate sets: `a` and `b` share the digest `x`, `c` and `d` the digest `y`. -/
def twoGroups : Files :=
  [NewFile "a" 1 "x", NewFile "b" 1 "x", NewFile "c" 1 "y", NewFile "d" 1 "y"]


/-- The scenario of the specification: `a.txt` and `b.txt` hold the same content,
`c.txt` holds another content of the same length. -/
def scenarioCatalog : Files :=
  [NewFile "a.txt" 1 "x", NewFile "b.txt" 1 "x", NewFile "c.txt" 1 "y"]

/-- Four files with one digest and two sizes, the sizes alternating. -/
def collidingCatalog : Files :=
  [NewFile "a" 1 "h", NewFile "b" 2 "h", NewFile "c" 1 "h", NewFile "d" 2 "h"]

/-- A duplicate list of three copies of five bytes each, with the ids 1, 2, 3. -/
def threeCopies : Files :=
  [{ Name := "a", Size := 5, Hash := "h", id := 1 },
   { Name := "b", Size := 5, Hash := "h", id := 2 },
   { Name := "c", Size := 5, Hash := "h", id := 3 }]

/-- A duplicate list of three copies of `2 ^ 62` bytes each, with the ids 1, 2, 3. -/
def threeHugeCopies : Files :=
  [{ Name := "a", Size := 2 ^ 62, Hash := "h", id := 1 },
   { Name := "b", Size := 2 ^ 62, Hash := "h", id := 2 },
   { Name := "c", Size := 2 ^ 62, Hash := "h", id := 3 }]

/-- A file system that holds the files `a`, `b` and `c`, none of them locked. -/
def diskABC : FileSystem := { present := ["a", "b", "c"], locked := [], removeCalls := [] }

/-- A file system that holds `a` and `c` only: the file `b` is missing. -/
def diskAC : FileSystem := { present := ["a", "c"], locked := [], removeCalls := [] }

/-! ## Lemmas about the map -/

theorem DupMap.get_set (m : DupMap) (k k' : String) (v : List File) :
    (m.set k v).get k' = if k = k' then v else m.get k' := by
  induction m with
  | nil => simp [DupMap.set, DupMap.get]
  | cons p m ih =>
    obtain ⟨a, b⟩ := p
    by_cases h : a = k
    · subst h
      simp only [DupMap.set, DupMap.get, if_true]
      by_cases h2 : a = k' <;> simp [h2]
    · simp only [DupMap.set, if_neg h, DupMap.get, ih]
      by_cases h2 : a = k'
      · subst h2; simp [Ne.symm h]
      · simp [h2]

theorem DupMap.keys_set (m : DupMap) (k : String) (v : List File) :
    (m.set k v).keys = if k ∈ m.keys then m.keys else m.keys ++ [k] := by
  induction m with
  | nil => simp [DupMap.set, DupMap.keys]
  | cons p m ih =>
    obtain ⟨a, b⟩ := p
    by_cases h : a = k
    · subst h; simp [DupMap.set, DupMap.keys]
    · have ih2 : List.map Prod.fst (DupMap.set m k v) =
          if k ∈ List.map Prod.fst m then List.map Prod.fst m else List.map Prod.fst m ++ [k] := ih
      simp only [DupMap.set, if_neg h, DupMap.keys, List.map_cons, ih2, List.mem_cons]
      by_cases h3 : k ∈ List.map Prod.fst m
      · simp [h3]
      · simp [h3, Ne.symm h]

theorem DupMap.mem_keys_set (m : DupMap) (k k' : String) (v : List File) :
    k' ∈ (m.set k v).keys ↔ k' ∈ m.keys ∨ k' = k := by
  rw [DupMap.keys_set]
  by_cases h : k ∈ m.keys
  · simp only [if_pos h]
    constructor
    · intro h1; exact Or.inl h1
    · rintro (h1 | h1)
      · exact h1
      · rw [h1]; exact h
  · simp [h]

theorem DupMap.nodup_keys_set (m : DupMap) (k : String) (v : List File)
    (h : m.keys.Nodup) : (m.set k v).keys.Nodup := by
  rw [DupMap.keys_set]
  by_cases hk : k ∈ m.keys
  · simpa [hk] using h
  · simp only [if_neg hk]
    exact List.Nodup.append h (List.nodup_singleton k) (by simpa using hk)

theorem get_pushAll (l : List File) (m : DupMap) (k : String) :
    (pushAll l m).get k = m.get k ++ withHash k l := by
  induction l generalizing m with
  | nil => simp [pushAll, withHash]
  | cons x xs ih =>
    simp only [pushAll, ih, DupMap.get_set, withHash]
    by_cases h : x.Hash = k
    · subst h; simp
    · simp [h]

theorem mem_keys_pushAll (l : List File) (m : DupMap) (k : String) :
    k ∈ (pushAll l m).keys ↔ k ∈ m.keys ∨ ∃ x ∈ l, x.Hash = k := by
  induction l generalizing m with
  | nil => simp [pushAll]
  | cons x xs ih =>
    simp only [pushAll, ih, DupMap.mem_keys_set, List.mem_cons]
    constructor
    · rintro ((h | h) | ⟨y, hy, h⟩)
      · exact Or.inl h
      · exact Or.inr ⟨x, Or.inl rfl, h.symm⟩
      · exact Or.inr ⟨y, Or.inr hy, h⟩
    · rintro (h | ⟨y, hy | hy, h⟩)
      · exact Or.inl (Or.inl h)
      · subst hy; exact Or.inl (Or.inr h.symm)
      · exact Or.inr ⟨y, hy, h⟩

theorem nodup_keys_pushAll (l : List File) (m : DupMap) (h : m.keys.Nodup) :
    (pushAll l m).keys.Nodup := by
  induction l generalizing m with
  | nil => simpa [pushAll] using h
  | cons x xs ih => exact ih _ (DupMap.nodup_keys_set m _ _ h)

/-! ## Lemmas about the first loop nest -/

theorem any_isPartner_iff (f : Files) (r : File) :
    f.any (isPartner r) = true ↔ hasPartner f r := by
  simp only [List.any_eq_true, hasPartner, isPartner, Bool.and_eq_true, bne_iff_ne, ne_eq,
    beq_iff_eq]
  constructor
  · rintro ⟨p, hp, ⟨h1, h2⟩, h3⟩
    exact ⟨p, hp, fun h => h1 h.symm, h2.symm, h3.symm⟩
  · rintro ⟨p, hp, h1, h2, h3⟩
    exact ⟨p, hp, ⟨fun h => h1 h.symm, h2.symm⟩, h3.symm⟩

theorem partnerLoop_eq (file : File) (l : List File) (m : DupMap) :
    partnerLoop file l m =
      if l.any (isPartner file) then m.set file.Hash (m.get file.Hash ++ [file]) else m := by
  induction l with
  | nil => simp [partnerLoop]
  | cons y ys ih =>
    by_cases h : isPartner file y = true
    · simp [partnerLoop, h]
    · simp only [partnerLoop, if_neg h, ih, List.any_cons]
      have h2 : isPartner file y = false := by simpa using h
      simp [h2]

theorem collectLoop_eq (f : Files) (l : List File) (m : DupMap) :
    collectLoop f l m = pushAll (l.filter (fun r => decide (hasPartner f r))) m := by
  induction l generalizing m with
  | nil => simp [collectLoop, pushAll]
  | cons x xs ih =>
    simp only [collectLoop, ih, partnerLoop_eq]
    by_cases h : hasPartner f x
    · have h2 : f.any (isPartner x) = true := (any_isPartner_iff f x).2 h
      simp [h2, h, pushAll, List.filter_cons]
    · have h2 : ¬ (f.any (isPartner x) = true) := fun h3 => h ((any_isPartner_iff f x).1 h3)
      simp [h2, h, List.filter_cons]

theorem collectDuplicates_get (f : Files) (k : String) :
    (collectDuplicates f).get k = withHash k (duplicatesOf f) := by
  simp [collectDuplicates, collectLoop_eq, get_pushAll, DupMap.get, duplicatesOf]

theorem mem_collectDuplicates_keys (f : Files) (k : String) :
    k ∈ (collectDuplicates f).keys ↔ ∃ x ∈ duplicatesOf f, x.Hash = k := by
  unfold collectDuplicates
  rw [collectLoop_eq, mem_keys_pushAll]
  simp [DupMap.keys, duplicatesOf]

theorem nodup_collectDuplicates_keys (f : Files) : (collectDuplicates f).keys.Nodup := by
  unfold collectDuplicates
  rw [collectLoop_eq]
  exact nodup_keys_pushAll _ _ (by simp [DupMap.keys])

/-! ## Lemmas about the second loop nest -/

theorem length_stamp (s : Int) (l : List File) : (stamp s l).length = l.length := by
  induction l generalizing s with
  | nil => simp [stamp]
  | cons x xs ih => simp [stamp, ih]

theorem stamp_append (s : Int) (a b : List File) :
    stamp s (a ++ b) = stamp s a ++ stamp (s + a.length) b := by
  induction a generalizing s with
  | nil => simp [stamp]
  | cons x xs ih =>
    have h : s + 1 + (xs.length : Int) = s + ((xs.length + 1 : Nat) : Int) := by
      push_cast; ring
    show stamp s (x :: (xs ++ b)) = stamp s (x :: xs) ++ stamp (s + ((xs.length + 1 : Nat) : Int)) b
    rw [stamp, stamp, ih, h, List.cons_append]

theorem numberLoop_eq (l : List File) (id : Int) (out : List File) :
    numberLoop l id out = (id + l.length, out ++ stamp id l) := by
  induction l generalizing id out with
  | nil => simp [numberLoop, stamp]
  | cons x xs ih =>
    simp only [numberLoop, ih, stamp, List.length_cons, List.append_assoc, List.singleton_append]
    have h : id + 1 + (xs.length : Int) = id + ((xs.length + 1 : Nat) : Int) := by
      push_cast; ring
    rw [h]

theorem rangeLoop_eq (m : DupMap) (keys : List String) (id : Int) (out : List File) :
    rangeLoop m keys id out =
      (id + (keys.flatMap m.get).length, out ++ stamp id (keys.flatMap m.get)) := by
  induction keys generalizing id out with
  | nil => simp [rangeLoop, stamp]
  | cons k ks ih =>
    simp only [rangeLoop, numberLoop_eq, ih, List.flatMap_cons, stamp_append, List.length_append,
      List.append_assoc]
    have h : id + ((m.get k).length : Int) + ((List.flatMap ks m.get).length : Int) =
        id + (((m.get k).length + (List.flatMap ks m.get).length : Nat) : Int) := by
      push_cast; ring
    rw [h]

theorem MapDuplicates_eq (f : Files) (keys : List String) :
    MapDuplicates f keys = stamp 1 (keys.flatMap (fun k => withHash k (duplicatesOf f))) := by
  unfold MapDuplicates
  rw [rangeLoop_eq]
  have h : (collectDuplicates f).get = fun k => withHash k (duplicatesOf f) := by
    funext k; exact collectDuplicates_get f k
  simp [h]

theorem map_eraseId_stamp (s : Int) (l : List File) :
    (stamp s l).map File.eraseId = l.map File.eraseId := by
  induction l generalizing s with
  | nil => simp [stamp]
  | cons x xs ih => simp [stamp, ih, File.eraseId]

theorem map_id_stamp (s : Int) (l : List File) :
    (stamp s l).map File.id = (List.range l.length).map (fun (i : Nat) => s + (i : Int)) := by
  induction l generalizing s with
  | nil => simp [stamp]
  | cons x xs ih =>
    simp only [stamp, List.map_cons, ih, List.length_cons, List.range_succ_eq_map, List.map_map]
    simp only [Nat.cast_zero, add_zero, List.cons.injEq, true_and]
    apply List.map_congr_left
    intro i _
    simp only [Function.comp, Nat.cast_succ]
    ring

/-! ## Lemmas about grouping by hash -/

theorem filter_or_perm (l : List File) (p q : File → Bool)
    (hd : ∀ x ∈ l, p x = true → q x = false) :
    (l.filter p ++ l.filter q).Perm (l.filter (fun x => p x || q x)) := by
  induction l with
  | nil => simp
  | cons x xs ih =>
    have ih2 := ih (fun y hy => hd y (List.mem_cons_of_mem _ hy))
    by_cases hp : p x = true
    · have hq : q x = false := hd x (List.mem_cons_self _ _) hp
      simp only [List.filter_cons, hp, hq, if_true, Bool.true_or, List.cons_append]
      simpa using ih2
    · have hp2 : p x = false := by simpa using hp
      by_cases hq : q x = true
      · simp only [List.filter_cons, hp2, hq, Bool.false_or, if_true]
        simp only [Bool.false_eq_true, if_false]
        exact List.perm_middle.trans (List.Perm.cons x ih2)
      · have hq2 : q x = false := by simpa using hq
        simpa [List.filter_cons, hp2, hq2] using ih2

theorem flatMap_withHash_perm (keys : List String) (l : List File) (hn : keys.Nodup) :
    (keys.flatMap (fun k => withHash k l)).Perm (l.filter (fun x => decide (x.Hash ∈ keys))) := by
  induction keys with
  | nil => simp
  | cons k ks ih =>
    have hk : k ∉ ks := (List.nodup_cons.1 hn).1
    have ih2 := ih (List.nodup_cons.1 hn).2
    have h1 : (withHash k l ++ ks.flatMap (fun k => withHash k l)).Perm
        (withHash k l ++ l.filter (fun x => decide (x.Hash ∈ ks))) := List.Perm.append_left _ ih2
    have h2 := filter_or_perm l (fun x => decide (x.Hash = k)) (fun x => decide (x.Hash ∈ ks))
      (by
        intro x _ hx
        have hx2 : x.Hash = k := by simpa using hx
        simp [hx2, hk])
    have h3 : (l.filter (fun x => decide (x.Hash = k) || decide (x.Hash ∈ ks))) =
        l.filter (fun x => decide (x.Hash ∈ k :: ks)) := by
      apply List.filter_congr
      intro x _
      simp
    rw [List.flatMap_cons]
    rw [← h3]
    exact h1.trans h2

theorem RangeOrder.nodup {f : Files} {keys : List String} (h : RangeOrder f keys) :
    keys.Nodup :=
  (List.Perm.nodup_iff h).2 (nodup_collectDuplicates_keys f)

theorem RangeOrder.mem_iff {f : Files} {keys : List String} (h : RangeOrder f keys)
    (k : String) : k ∈ keys ↔ ∃ x ∈ duplicatesOf f, x.Hash = k := by
  rw [List.Perm.mem_iff h, mem_collectDuplicates_keys]

theorem grouped_perm (f : Files) (keys : List String) (h : RangeOrder f keys) :
    (keys.flatMap (fun k => withHash k (duplicatesOf f))).Perm (duplicatesOf f) := by
  have h1 := flatMap_withHash_perm keys (duplicatesOf f) h.nodup
  have h2 : (duplicatesOf f).filter (fun x => decide (x.Hash ∈ keys)) = duplicatesOf f := by
    apply List.filter_eq_self.2
    intro x hx
    simpa using (h.mem_iff x.Hash).2 ⟨x, hx, rfl⟩
  rw [h2] at h1
  exact h1

theorem MapDuplicates_eraseId_perm (f : Files) (keys : List String) (h : RangeOrder f keys) :
    ((MapDuplicates f keys).map File.eraseId).Perm ((duplicatesOf f).map File.eraseId) := by
  rw [MapDuplicates_eq, map_eraseId_stamp]
  exact (grouped_perm f keys h).map _

theorem hasPartner_eraseId (f : Files) (r : File) : hasPartner f r.eraseId ↔ hasPartner f r := by
  simp [hasPartner, File.eraseId]

theorem mem_duplicatesOf_eraseId (f : Files) (r : File) :
    r.eraseId ∈ (duplicatesOf f).map File.eraseId ↔
      r.eraseId ∈ f.map File.eraseId ∧ hasPartner f r := by
  simp only [duplicatesOf, List.mem_map, List.mem_filter, decide_eq_true_eq]
  constructor
  · rintro ⟨a, ⟨ha, hp⟩, he⟩
    refine ⟨⟨a, ha, he⟩, ?_⟩
    rw [← hasPartner_eraseId, ← he, hasPartner_eraseId]
    exact hp
  · rintro ⟨⟨a, ha, he⟩, hp⟩
    refine ⟨a, ⟨ha, ?_⟩, he⟩
    rw [← hasPartner_eraseId, he, hasPartner_eraseId]
    exact hp

theorem MapDuplicates_ids (f : Files) (keys : List String) :
    (MapDuplicates f keys).map File.id =
      (List.range (MapDuplicates f keys).length).map (fun (i : Nat) => 1 + (i : Int)) := by
  rw [MapDuplicates_eq, map_id_stamp, length_stamp]

/-! ## Lemmas about runs of ids -/

theorem mem_stamp {s : Int} {l : List File} {y : File} (h : y ∈ stamp s l) :
    ∃ x ∈ l, x.eraseId = y.eraseId := by
  have h1 : y.eraseId ∈ (stamp s l).map File.eraseId := List.mem_map_of_mem _ h
  rw [map_eraseId_stamp] at h1
  obtain ⟨x, hx, he⟩ := List.mem_map.1 h1
  exact ⟨x, hx, he⟩

theorem eraseId_hash {x y : File} (h : x.eraseId = y.eraseId) : x.Hash = y.Hash := by
  have := congrArg File.Hash h
  simpa [File.eraseId] using this

theorem eraseId_size {x y : File} (h : x.eraseId = y.eraseId) : x.Size = y.Size := by
  have := congrArg File.Size h
  simpa [File.eraseId] using this

theorem mem_withHash {k : String} {l : List File} {x : File} (h : x ∈ withHash k l) :
    x ∈ l ∧ x.Hash = k := by
  simpa [withHash] using h

theorem filter_stamp_self (s : Int) (k : String) (l : List File) :
    (stamp s (withHash k l)).filter (fun r => decide (r.Hash = k)) = stamp s (withHash k l) := by
  apply List.filter_eq_self.2
  intro y hy
  obtain ⟨x, hx, he⟩ := mem_stamp hy
  simp only [decide_eq_true_eq]
  rw [← eraseId_hash he]
  exact (mem_withHash hx).2

theorem filter_stamp_nil (s : Int) (k hash : String) (l : List File) (hk : k ≠ hash) :
    (stamp s (withHash k l)).filter (fun r => decide (r.Hash = hash)) = [] := by
  apply List.filter_eq_nil_iff.2
  intro y hy
  obtain ⟨x, hx, he⟩ := mem_stamp hy
  simp only [decide_eq_true_eq]
  rw [← eraseId_hash he, (mem_withHash hx).2]
  exact hk

theorem filter_stamp_flatMap (keys : List String) (hn : keys.Nodup) (l : List File)
    (hash : String) (s : Int) :
    ∃ t : Int, s ≤ t ∧
      (stamp s (keys.flatMap (fun k => withHash k l))).filter (fun r => decide (r.Hash = hash)) =
        if hash ∈ keys then stamp t (withHash hash l) else [] := by
  induction keys generalizing s with
  | nil => exact ⟨s, le_refl s, by simp [stamp]⟩
  | cons k ks ih =>
    obtain ⟨hk, hks⟩ := List.nodup_cons.1 hn
    rw [List.flatMap_cons, stamp_append, List.filter_append]
    obtain ⟨t, ht, ih2⟩ := ih hks (s + ((withHash k l).length : Int))
    by_cases hkh : k = hash
    · subst hkh
      refine ⟨s, le_refl s, ?_⟩
      rw [ih2, if_neg hk, filter_stamp_self]
      simp
    · refine ⟨t, by omega, ?_⟩
      rw [ih2, filter_stamp_nil s k hash l hkh]
      have hiff : hash ∈ k :: ks ↔ hash ∈ ks := by
        simp [List.mem_cons, Ne.symm hkh]
      by_cases hm : hash ∈ ks
      · rw [if_pos hm, if_pos (hiff.2 hm)]; simp
      · rw [if_neg hm, if_neg (fun h => hm (hiff.1 h))]; simp

theorem contiguousRun_nil : ContiguousRun [] :=
  ⟨List.nodup_nil, by simp, by simp⟩

theorem contiguousRun_range (s : Int) (n : Nat) (hs : 0 < s) :
    ContiguousRun ((List.range n).map (fun (i : Nat) => s + (i : Int))) := by
  have hmem : ∀ x : Int, x ∈ (List.range n).map (fun (i : Nat) => s + (i : Int)) ↔
      (s ≤ x ∧ x < s + (n : Int)) := by
    intro x
    simp only [List.mem_map, List.mem_range]
    constructor
    · rintro ⟨i, hi, rfl⟩
      constructor <;> omega
    · rintro ⟨h1, h2⟩
      refine ⟨(x - s).toNat, ?_, ?_⟩ <;> omega
  refine ⟨?_, ?_, ?_⟩
  · apply List.Nodup.map
    · intro a b hab
      have : s + (a : Int) = s + (b : Int) := hab
      omega
    · exact List.nodup_range _
  · intro x hx
    have := (hmem x).1 hx
    omega
  · intro m hm hmin x
    have h1 := (hmem m).1 hm
    have hn : 0 < n := by omega
    have h2 : s ∈ (List.range n).map (fun (i : Nat) => s + (i : Int)) :=
      (hmem s).2 ⟨le_refl s, by omega⟩
    have h3 := hmin s h2
    have hms : m = s := by omega
    rw [hms, hmem x]
    simp

theorem idsOfHash_run (f : Files) (keys : List String) (h : RangeOrder f keys)
    (hash : String) : ContiguousRun (idsOfHash (MapDuplicates f keys) hash) := by
  unfold idsOfHash
  rw [MapDuplicates_eq]
  obtain ⟨t, ht, he⟩ := filter_stamp_flatMap keys h.nodup (duplicatesOf f) hash 1
  rw [he]
  by_cases hm : hash ∈ keys
  · rw [if_pos hm, map_id_stamp]
    exact contiguousRun_range t _ (by omega)
  · rw [if_neg hm]
    exact contiguousRun_nil

theorem mem_MapDuplicates {f : Files} {keys : List String} {y : File}
    (h : y ∈ MapDuplicates f keys) : ∃ x ∈ f, x.eraseId = y.eraseId := by
  rw [MapDuplicates_eq] at h
  obtain ⟨x, hx, he⟩ := mem_stamp h
  obtain ⟨k, _, hxk⟩ := List.mem_flatMap.1 hx
  have hxd : x ∈ duplicatesOf f := (mem_withHash hxk).1
  exact ⟨x, (List.mem_filter.1 hxd).1, he⟩

/-! ## Theorems about `MapDuplicates` -/

/-- C1: a record, its id ignored, occurs in the output of `MapDuplicates` exactly when
it occurs in the catalog and the catalog holds a record with a different `Name`,
the same `Size` and the same `Hash`; so a record whose same-size companions all
differ in `Hash` is absent, and two records with equal `Size`, equal `Hash` and
different `Name` are both present. -/
theorem mapDuplicates_mem_iff (f : Files) (keys : List String) (h : RangeOrder f keys) :
    (∀ r : File, r.eraseId ∈ (MapDuplicates f keys).map File.eraseId ↔
        (r.eraseId ∈ f.map File.eraseId ∧ hasPartner f r)) ∧
    (∀ r : File, (∀ p ∈ f, p.Name ≠ r.Name → p.Size = r.Size → p.Hash ≠ r.Hash) →
        r.eraseId ∉ (MapDuplicates f keys).map File.eraseId) ∧
    (∀ a ∈ f, ∀ b ∈ f, a.Size = b.Size → a.Hash = b.Hash → a.Name ≠ b.Name →
        a.eraseId ∈ (MapDuplicates f keys).map File.eraseId ∧
        b.eraseId ∈ (MapDuplicates f keys).map File.eraseId) := by
  have key : ∀ r : File, r.eraseId ∈ (MapDuplicates f keys).map File.eraseId ↔
      (r.eraseId ∈ f.map File.eraseId ∧ hasPartner f r) := by
    intro r
    rw [List.Perm.mem_iff (MapDuplicates_eraseId_perm f keys h)]
    exact mem_duplicatesOf_eraseId f r
  refine ⟨key, ?_, ?_⟩
  · intro r hr hmem
    obtain ⟨p, hp, h1, h2, h3⟩ := ((key r).1 hmem).2
    exact hr p hp h1 h2 h3
  · intro a ha b hb hs hh hn
    constructor
    · exact (key a).2 ⟨List.mem_map_of_mem _ ha, b, hb, fun e => hn e.symm, hs.symm, hh.symm⟩
    · exact (key b).2 ⟨List.mem_map_of_mem _ hb, a, ha, hn, hs, hh⟩

/-- Witness of C1 on the scenario catalog: `a.txt` is reported, `c.txt` is not. -/
theorem mapDuplicates_mem_iff_witness :
    RangeOrder scenarioCatalog ["x"] ∧
    (NewFile "a.txt" 1 "x").eraseId ∈ (MapDuplicates scenarioCatalog ["x"]).map File.eraseId ∧
    (NewFile "c.txt" 1 "y").eraseId ∉ (MapDuplicates scenarioCatalog ["x"]).map File.eraseId :=
  ⟨by decide,
   ((mapDuplicates_mem_iff scenarioCatalog ["x"] (by decide)).1 (NewFile "a.txt" 1 "x")).2
     ⟨by decide, by decide⟩,
   (mapDuplicates_mem_iff scenarioCatalog ["x"] (by decide)).2.1 (NewFile "c.txt" 1 "y")
     (by decide)⟩

/-- C5: the display ids of the output of `MapDuplicates` come from a counter that
starts at 1 and grows by one per record: the record at position `i` carries the id
`i + 1`, so the ids are pairwise distinct, positive, and are exactly the integers
from 1 to the length of the output. -/
theorem mapDuplicates_ids_sequential (f : Files) (keys : List String) :
    (∀ (i : Nat) (h : i < (MapDuplicates f keys).length),
        ((MapDuplicates f keys).get ⟨i, h⟩).id = (i : Int) + 1) ∧
    ((MapDuplicates f keys).map File.id).Nodup ∧
    (∀ r ∈ MapDuplicates f keys, 0 < r.id) ∧
    (∀ n : Int, n ∈ (MapDuplicates f keys).map File.id ↔
        (1 ≤ n ∧ n ≤ ((MapDuplicates f keys).length : Int))) := by
  have hids := MapDuplicates_ids f keys
  have hmem : ∀ n : Int, n ∈ (MapDuplicates f keys).map File.id ↔
      (1 ≤ n ∧ n ≤ ((MapDuplicates f keys).length : Int)) := by
    intro n
    rw [hids]
    simp only [List.mem_map, List.mem_range]
    constructor
    · rintro ⟨i, hi, rfl⟩
      constructor <;> omega
    · rintro ⟨h1, h2⟩
      refine ⟨(n - 1).toNat, ?_, ?_⟩ <;> omega
  refine ⟨?_, ?_, ?_, hmem⟩
  · intro i h
    have h1 : ((MapDuplicates f keys).map File.id)[i]? = some ((i : Int) + 1) := by
      rw [hids]
      simp [List.getElem?_map, List.getElem?_range h, add_comm]
    rw [List.getElem?_map, List.getElem?_eq_getElem h] at h1
    simpa using h1
  · rw [hids]
    apply List.Nodup.map
    · intro a b hab
      have : 1 + (a : Int) = 1 + (b : Int) := hab
      omega
    · exact List.nodup_range _
  · intro r hr
    have := (hmem r.id).1 (List.mem_map_of_mem _ hr)
    omega

/-- C10: the output of `MapDuplicates`, ids erased, is a rearrangement of the records
of the catalog that have a partner; each such record is emitted once, however many
partners it has, so the output is as long as the list of records with a partner. -/
theorem mapDuplicates_each_once (f : Files) (keys : List String) (h : RangeOrder f keys) :
    ((MapDuplicates f keys).map File.eraseId).Perm
        ((f.filter (fun r => decide (hasPartner f r))).map File.eraseId) ∧
    (∀ r : File, ((MapDuplicates f keys).map File.eraseId).count r =
        ((f.filter (fun r => decide (hasPartner f r))).map File.eraseId).count r) ∧
    (MapDuplicates f keys).length = (f.filter (fun r => decide (hasPartner f r))).length := by
  have hp := MapDuplicates_eraseId_perm f keys h
  refine ⟨hp, fun r => hp.count_eq r, ?_⟩
  have := hp.length_eq
  simpa [duplicatesOf] using this

/-- Witness of C10 on the scenario catalog: two records are reported. -/
theorem mapDuplicates_each_once_witness :
    RangeOrder scenarioCatalog ["x"] ∧ (MapDuplicates scenarioCatalog ["x"]).length = 2 :=
  ⟨by decide, (mapDuplicates_each_once scenarioCatalog ["x"] (by decide)).2.2.trans (by decide)⟩

/-! ## Lemmas about `DeleteFiles` -/

theorem sweep_append (a b : List File) (freeSize : Int) (fs : FileSystem) :
    sweep (a ++ b) freeSize fs =
      match sweep a freeSize fs with
      | (Except.error err, fs1) => (Except.error err, fs1)
      | (Except.ok v, fs1) => sweep b v fs1 := by
  induction a generalizing freeSize fs with
  | nil => simp [sweep]
  | cons x xs ih =>
    simp only [List.cons_append, sweep]
    rcases h : osRemove fs x.Name with ⟨_ | err, fs1⟩
    · exact ih _ _
    · simp

theorem removeLoop_eq (n : Int) (l : List File) (freeSize : Int) (fs : FileSystem) :
    removeLoop n l freeSize fs = sweep (l.filter (fun r => decide (r.id = n))) freeSize fs := by
  induction l generalizing freeSize fs with
  | nil => simp [removeLoop, sweep]
  | cons x xs ih =>
    by_cases h : x.id = n
    · simp only [removeLoop, if_pos h, List.filter_cons, h, decide_True, if_true, sweep]
      rcases h2 : osRemove fs x.Name with ⟨_ | err, fs1⟩
      · simp only [ih]
      · simp
    · simp only [removeLoop, if_neg h, List.filter_cons, h, decide_False, ih]
      simp

theorem deleteLoop_eq (f : Files) (ids : List Int) (freeSize : Int) (fs : FileSystem) :
    deleteLoop f ids freeSize fs = finish (sweep (matched f ids) freeSize fs) := by
  induction ids generalizing freeSize fs with
  | nil => simp [deleteLoop, matched, sweep, finish]
  | cons n ns ih =>
    have hm : matched f (n :: ns) = f.filter (fun r => decide (r.id = n)) ++ matched f ns := by
      simp [matched]
    rw [hm, sweep_append]
    simp only [deleteLoop, removeLoop_eq]
    rcases h : sweep (f.filter (fun r => decide (r.id = n))) freeSize fs with ⟨err | v, fs1⟩
    · simp [finish]
    · simp only [ih]

theorem DeleteFiles_eq (f : Files) (ids : List Int) (fs : FileSystem) :
    DeleteFiles f ids fs = finish (sweep (matched f ids) 0 fs) :=
  deleteLoop_eq f ids 0 fs

theorem osRemove_calls (fs : FileSystem) (p : String) :
    (osRemove fs p).2.removeCalls = fs.removeCalls ++ [p] := by
  unfold osRemove
  split_ifs <;> rfl

theorem osRemove_ok {fs fs1 : FileSystem} {p : String} (h : osRemove fs p = (none, fs1)) :
    fs1.present = fs.present.filter (fun q => decide (q ≠ p)) ∧ fs1.locked = fs.locked ∧
      fs1.removeCalls = fs.removeCalls ++ [p] := by
  unfold osRemove at h
  split_ifs at h
  · simp at h
  · simp only [Prod.mk.injEq, true_and] at h
    subst h
    exact ⟨rfl, rfl, rfl⟩
  · simp at h

theorem osRemove_fail_present {fs : FileSystem} {p : String} {err : RemoveError}
    (h : (osRemove fs p).1 = some err) :
    (osRemove fs p).2.present = fs.present ∧ (osRemove fs p).2.locked = fs.locked := by
  unfold osRemove at h ⊢
  split_ifs at h ⊢
  all_goals exact ⟨rfl, rfl⟩

theorem removeAll_some {fs fs1 : FileSystem} {ps : List String}
    (h : removeAll fs ps = some fs1) :
    fs1.present = fs.present.filter (fun q => decide (q ∉ ps)) ∧ fs1.locked = fs.locked ∧
      fs1.removeCalls = fs.removeCalls ++ ps := by
  induction ps generalizing fs with
  | nil =>
    simp only [removeAll, Option.some.injEq] at h
    subst h
    simp
  | cons p ps ih =>
    simp only [removeAll] at h
    rcases h2 : osRemove fs p with ⟨_ | err, fs2⟩
    · rw [h2] at h
      obtain ⟨h3, h4, h5⟩ := ih h
      obtain ⟨h6, h7, h8⟩ := osRemove_ok h2
      refine ⟨?_, by rw [h4, h7], by rw [h5, h8]; simp⟩
      rw [h3, h6, List.filter_filter]
      apply List.filter_congr
      intro q _
      simp only [List.mem_cons, not_or, Bool.decide_and, Bool.and_comm]
    · rw [h2] at h
      simp at h

theorem sweep_ok {l : List File} {fs fs1 : FileSystem} (freeSize : Int)
    (h : removeAll fs (l.map File.Name) = some fs1) :
    sweep l freeSize fs = (Except.ok (addSizes l freeSize), fs1) := by
  induction l generalizing fs freeSize with
  | nil =>
    simp only [List.map_nil, removeAll, Option.some.injEq] at h
    subst h
    simp [sweep, addSizes]
  | cons x xs ih =>
    simp only [List.map_cons, removeAll] at h
    simp only [sweep, addSizes]
    rcases h2 : osRemove fs x.Name with ⟨_ | err, fs2⟩
    · rw [h2] at h
      exact ih _ h
    · rw [h2] at h
      simp at h

theorem sweep_fail {l : List File} {fs fs1 : FileSystem} (freeSize : Int) (k : Nat)
    (hk : k < l.length) {err : RemoveError}
    (hpre : removeAll fs ((l.take k).map File.Name) = some fs1)
    (hfail : (osRemove fs1 (l.get ⟨k, hk⟩).Name).1 = some err) :
    sweep l freeSize fs = (Except.error err, (osRemove fs1 (l.get ⟨k, hk⟩).Name).2) := by
  have hsplit : l = l.take k ++ (l.get ⟨k, hk⟩ :: l.drop (k + 1)) := by
    rw [List.get_eq_getElem, ← List.drop_eq_getElem_cons hk, List.take_append_drop]
  have h1 : sweep l freeSize fs =
      sweep (l.take k ++ (l.get ⟨k, hk⟩ :: l.drop (k + 1))) freeSize fs := by
    rw [← hsplit]
  rw [h1, sweep_append, sweep_ok freeSize hpre]
  simp only [sweep]
  rcases h2 : osRemove fs1 (l.get ⟨k, hk⟩).Name with ⟨_ | e, fs2⟩
  · rw [h2] at hfail
    simp at hfail
  · rw [h2] at hfail
    simp only [Option.some.injEq] at hfail
    subst hfail
    rfl

/-! ## Lemmas about the wrapped sum -/

theorem wrapInt_of_range {x : Int} (h1 : -2 ^ 63 ≤ x) (h2 : x < 2 ^ 63) : wrapInt x = x := by
  unfold wrapInt
  norm_num at h1 h2 ⊢
  omega

theorem wrapInt_add (a b : Int) : wrapInt (wrapInt a + wrapInt b) = wrapInt (a + b) := by
  unfold wrapInt
  norm_num
  omega

theorem wrapInt_add_left (a b : Int) : wrapInt (wrapInt a + b) = wrapInt (a + b) := by
  unfold wrapInt
  norm_num
  omega

theorem addSizes_eq (l : List File) (freeSize : Int) :
    wrapInt (addSizes l freeSize) = wrapInt (freeSize + (l.map File.Size).sum) := by
  induction l generalizing freeSize with
  | nil => simp [addSizes]
  | cons x xs ih =>
    simp only [addSizes, ih, List.map_cons, List.sum_cons]
    generalize (List.map File.Size xs).sum = c
    unfold wrapInt
    norm_num
    omega

theorem addSizes_wrapped (l : List File) (freeSize : Int) (h : wrapInt freeSize = freeSize) :
    wrapInt (addSizes l freeSize) = addSizes l freeSize := by
  induction l generalizing freeSize with
  | nil => simpa [addSizes] using h
  | cons x xs ih =>
    simp only [addSizes]
    apply ih
    unfold wrapInt
    norm_num

theorem addSizes_zero (l : List File) : addSizes l 0 = wrapInt ((l.map File.Size).sum) := by
  rw [← addSizes_wrapped l 0 (by decide), addSizes_eq, zero_add]

/-! ## Lemmas about the selected records -/

theorem mem_matched {f : Files} {ids : List Int} {r : File} (h : r ∈ matched f ids) :
    r ∈ f ∧ r.id ∈ ids := by
  simp only [matched, List.mem_flatMap, List.mem_filter, decide_eq_true_eq] at h
  obtain ⟨n, hn, hr, he⟩ := h
  exact ⟨hr, he ▸ hn⟩

theorem length_filter_id (f : Files) (n : Int) (hid : (f.map File.id).Nodup)
    (hn : n ∈ f.map File.id) : (f.filter (fun r => decide (r.id = n))).length = 1 := by
  induction f with
  | nil => simp at hn
  | cons x xs ih =>
    simp only [List.map_cons, List.nodup_cons] at hid
    by_cases hx : x.id = n
    · have hnone : xs.filter (fun r => decide (r.id = n)) = [] := by
        apply List.filter_eq_nil_iff.2
        intro r hr
        simp only [decide_eq_true_eq]
        intro hrn
        exact hid.1 (hx ▸ hrn ▸ List.mem_map_of_mem _ hr)
      simp [List.filter_cons, hx, hnone]
    · have hn2 : n ∈ xs.map File.id := by
        simp only [List.map_cons, List.mem_cons] at hn
        rcases hn with hn | hn
        · exact absurd hn.symm hx
        · exact hn
      simp [List.filter_cons, hx, ih hid.2 hn2]

theorem length_matched (f : Files) (ids : List Int) (hid : (f.map File.id).Nodup)
    (hsub : ∀ n ∈ ids, n ∈ f.map File.id) : (matched f ids).length = ids.length := by
  induction ids with
  | nil => simp [matched]
  | cons n ns ih =>
    have hm : matched f (n :: ns) = f.filter (fun r => decide (r.id = n)) ++ matched f ns := by
      simp [matched]
    rw [hm, List.length_append, length_filter_id f n hid (hsub n (List.mem_cons_self _ _)),
      ih (fun m hm => hsub m (List.mem_cons_of_mem _ hm)), List.length_cons, add_comm]

theorem sum_sizes_const (l : List File) (S : Int) (h : ∀ r ∈ l, r.Size = S) :
    (l.map File.Size).sum = (l.length : Int) * S := by
  induction l with
  | nil => simp
  | cons x xs ih =>
    simp only [List.map_cons, List.sum_cons, List.length_cons, Nat.cast_succ,
      h x (List.mem_cons_self _ _), ih (fun r hr => h r (List.mem_cons_of_mem _ hr))]
    ring

theorem DeleteFiles_fail {f : Files} {ids : List Int} {fs fs1 : FileSystem} (k : Nat)
    (hk : k < (matched f ids).length) {err : RemoveError}
    (hpre : removeAll fs (((matched f ids).take k).map File.Name) = some fs1)
    (hfail : (osRemove fs1 ((matched f ids).get ⟨k, hk⟩).Name).1 = some err) :
    DeleteFiles f ids fs =
      ((0, some err), (osRemove fs1 ((matched f ids).get ⟨k, hk⟩).Name).2) := by
  rw [DeleteFiles_eq, sweep_fail 0 k hk hpre hfail]
  rfl

/-! ## Theorems about `DeleteFiles` -/

/-- C2, as the specification states it, fails: three copies of `2 ^ 62` bytes each with
the ids 1, 2, 3, of which the ids 1 and 2 are deleted successfully; `(N-1)*S` is
`2 ^ 63`, which `int` cannot hold, and `DeleteFiles` returns `-2 ^ 63`. -/
theorem deleteFiles_all_but_one_overflow :
    (∀ r ∈ threeHugeCopies, r.Size = 2 ^ 62) ∧
    (threeHugeCopies.map File.id).Nodup ∧
    1 ≤ threeHugeCopies.length ∧
    ([1, 2] : List Int).Nodup ∧
    ([1, 2] : List Int).length = threeHugeCopies.length - 1 ∧
    (∀ n ∈ ([1, 2] : List Int), n ∈ threeHugeCopies.map File.id) ∧
    (removeAll diskABC ((matched threeHugeCopies [1, 2]).map File.Name)).isSome = true ∧
    (DeleteFiles threeHugeCopies [1, 2] diskABC).1 = (-2 ^ 63, none) ∧
    (DeleteFiles threeHugeCopies [1, 2] diskABC).1 ≠
      (((threeHugeCopies.length : Int) - 1) * 2 ^ 62, none) := by
  refine ⟨by decide, by decide, by decide, by decide, by decide, by decide, by decide, ?_, ?_⟩
  · decide
  · decide

/-- C2, amended: for a duplicate list of `N ≥ 1` records of size `S` with pairwise
distinct ids and `N - 1` pairwise distinct ids taken from it, if every removal
succeeds then `DeleteFiles` returns no error and the byte count `(N-1)*S` reduced to
the 64-bit range of `int`; it is exactly `(N-1)*S` whenever that product lies in
the range. -/
theorem deleteFiles_all_but_one (f : Files) (ids : List Int) (fs : FileSystem) (S : Int)
    (hS : ∀ r ∈ f, r.Size = S) (hid : (f.map File.id).Nodup) (hN : 1 ≤ f.length)
    (_hnd : ids.Nodup) (hlen : ids.length = f.length - 1)
    (hsub : ∀ n ∈ ids, n ∈ f.map File.id)
    (hrem : (removeAll fs ((matched f ids).map File.Name)).isSome = true) :
    (DeleteFiles f ids fs).1 = (wrapInt (((f.length : Int) - 1) * S), none) ∧
    (-2 ^ 63 ≤ ((f.length : Int) - 1) * S → ((f.length : Int) - 1) * S < 2 ^ 63 →
      (DeleteFiles f ids fs).1 = (((f.length : Int) - 1) * S, none)) := by
  obtain ⟨fs1, hfs1⟩ := Option.isSome_iff_exists.1 hrem
  have hsum : ((matched f ids).map File.Size).sum = ((f.length : Int) - 1) * S := by
    rw [sum_sizes_const (matched f ids) S (fun r hr => hS r (mem_matched hr).1),
      length_matched f ids hid hsub, hlen]
    have h1 : ((f.length - 1 : Nat) : Int) = (f.length : Int) - 1 := by omega
    rw [h1]
  have hres : (DeleteFiles f ids fs).1 = (wrapInt (((f.length : Int) - 1) * S), none) := by
    rw [DeleteFiles_eq, sweep_ok 0 hfs1, addSizes_zero, hsum]
    rfl
  refine ⟨hres, fun h1 h2 => ?_⟩
  rw [hres, wrapInt_of_range h1 h2]

/-- Witness of C2: two of three copies of five bytes are deleted and ten bytes are
reported. -/
theorem deleteFiles_all_but_one_witness :
    (removeAll diskABC ((matched threeCopies [1, 3]).map File.Name)).isSome = true ∧
    (DeleteFiles threeCopies [1, 3] diskABC).1 = (10, none) :=
  ⟨by decide,
   ((deleteFiles_all_but_one threeCopies [1, 3] diskABC 5 (by decide) (by decide) (by decide)
      (by decide) (by decide) (by decide) (by decide)).2 (by decide) (by decide)).trans
      (by decide)⟩

/-- C3: `DeleteFiles` stops at the first failed removal.  If the removals of the first
`k` selected records succeed and the removal of the next one fails, `DeleteFiles`
returns that error, the files of the first `k` selected records are gone and every
other file is still there, and `os.Remove` has been called for the first `k + 1`
selected records and for nothing else.  For the ids 1, 2, 3 with the file of id 2
missing: the file of id 1 is removed, an error is returned, and the file of id 3 is
neither removed nor passed to `os.Remove`. -/
theorem deleteFiles_stops_at_first_failure (f : Files) (ids : List Int)
    (fs fs1 : FileSystem) (k : Nat) (hk : k < (matched f ids).length) (err : RemoveError)
    (hpre : removeAll fs (((matched f ids).take k).map File.Name) = some fs1)
    (hfail : (osRemove fs1 ((matched f ids).get ⟨k, hk⟩).Name).1 = some err) :
    ((DeleteFiles f ids fs).1.2 = some err ∧
      (DeleteFiles f ids fs).2.present =
        fs.present.filter
          (fun q => decide (q ∉ ((matched f ids).take k).map File.Name)) ∧
      (DeleteFiles f ids fs).2.removeCalls =
        fs.removeCalls ++ ((matched f ids).take (k + 1)).map File.Name) ∧
    ((DeleteFiles threeCopies [1, 2, 3] diskAC).1.2 = some (RemoveError.notExist "b") ∧
      (DeleteFiles threeCopies [1, 2, 3] diskAC).2.present = ["c"] ∧
      (DeleteFiles threeCopies [1, 2, 3] diskAC).2.removeCalls = ["a", "b"]) := by
  refine ⟨?_, by decide⟩
  rw [DeleteFiles_fail k hk hpre hfail]
  obtain ⟨h1, _, h3⟩ := removeAll_some hpre
  refine ⟨rfl, ?_, ?_⟩
  · rw [(osRemove_fail_present hfail).1, h1]
  · rw [osRemove_calls, h3, List.append_assoc]
    congr 1
    rw [List.take_succ, List.map_append, List.getElem?_eq_getElem hk]
    simp

/-- Witness of C3: the ids 1, 2, 3 on a disk where the file of id 2 is missing. -/
theorem deleteFiles_stops_at_first_failure_witness :
    removeAll diskAC (((matched threeCopies [1, 2, 3]).take 1).map File.Name) =
      some { present := ["c"], locked := [], removeCalls := ["a"] } ∧
    (DeleteFiles threeCopies [1, 2, 3] diskAC).1.2 = some (RemoveError.notExist "b") :=
  ⟨by decide,
   (deleteFiles_stops_at_first_failure threeCopies [1, 2, 3] diskAC
      { present := ["c"], locked := [], removeCalls := ["a"] } 1 (by decide)
      (RemoveError.notExist "b") (by decide) (by decide)).1.1⟩

/-- C4, as the specification states it, fails: for the ids 1 and 2 where the file of
id 1 holds five bytes and is removed, and the file of id 2 is missing, `DeleteFiles`
returns the error together with 0, not with 5. -/
theorem deleteFiles_error_count_dropped :
    removeAll diskAC (((matched threeCopies [1, 2]).take 1).map File.Name) =
      some { present := ["c"], locked := [], removeCalls := ["a"] } ∧
    (((matched threeCopies [1, 2]).take 1).map File.Size).sum = 5 ∧
    (DeleteFiles threeCopies [1, 2] diskAC).1 = (0, some (RemoveError.notExist "b")) ∧
    (DeleteFiles threeCopies [1, 2] diskAC).1.1 ≠
      (((matched threeCopies [1, 2]).take 1).map File.Size).sum := by
  refine ⟨by decide, by decide, by decide, by decide⟩

/-- C4, amended: when a removal fails in `DeleteFiles`, the byte count returned
together with the error is 0, whatever the sizes of the files that the same call
removed before the failure. -/
theorem deleteFiles_failure_returns_zero (f : Files) (ids : List Int)
    (fs fs1 : FileSystem) (k : Nat) (hk : k < (matched f ids).length) (err : RemoveError)
    (hpre : removeAll fs (((matched f ids).take k).map File.Name) = some fs1)
    (hfail : (osRemove fs1 ((matched f ids).get ⟨k, hk⟩).Name).1 = some err) :
    (DeleteFiles f ids fs).1 = (0, some err) := by
  rw [DeleteFiles_fail k hk hpre hfail]

/-- Witness of C4: the ids 1 and 2 on a disk where the file of id 2 is missing. -/
theorem deleteFiles_failure_returns_zero_witness :
    removeAll diskAC (((matched threeCopies [1, 2]).take 1).map File.Name) =
      some { present := ["c"], locked := [], removeCalls := ["a"] } ∧
    (DeleteFiles threeCopies [1, 2] diskAC).1 = (0, some (RemoveError.notExist "b")) :=
  ⟨by decide,
   deleteFiles_failure_returns_zero threeCopies [1, 2] diskAC
      { present := ["c"], locked := [], removeCalls := ["a"] } 1 (by decide)
      (RemoveError.notExist "b") (by decide) (by decide)⟩

/-! ## Lemmas about sorting -/

theorem sortKey_lt_iff (a b : File) :
    sortKey a < sortKey b ↔
      a.Size < b.Size ∨ (a.Size = b.Size ∧ a.Hash < b.Hash) ∨
        (a.Size = b.Size ∧ a.Hash = b.Hash ∧ a.Name < b.Name) := by
  unfold sortKey
  rw [Prod.Lex.lt_iff]
  simp only [Prod.Lex.lt_iff]
  tauto

theorem sortKey_eq_iff (a b : File) :
    sortKey a = sortKey b ↔ a.Size = b.Size ∧ a.Hash = b.Hash ∧ a.Name = b.Name := by
  unfold sortKey
  simp only [EmbeddingLike.apply_eq_iff_eq, Prod.mk.injEq]

theorem descLess_iff (a b : File) : descLess a b = true ↔ sortKey b < sortKey a := by
  rw [sortKey_lt_iff]
  unfold descLess
  by_cases h1 : a.Size = b.Size
  · by_cases h2 : a.Hash = b.Hash
    · simp [h1, h2]
    · simp [h1, h2, Ne.symm h2]
  · simp [h1, Ne.symm h1]

theorem ascLess_iff (a b : File) : ascLess a b = true ↔ sortKey a < sortKey b := by
  rw [sortKey_lt_iff]
  unfold ascLess
  by_cases h1 : a.Size = b.Size
  · by_cases h2 : a.Hash = b.Hash
    · simp [h1, h2]
    · simp [h1, h2]
  · simp [h1]

theorem perm_insertSorted (less : File → File → Bool) (x : File) (l : List File) :
    (insertSorted less x l).Perm (x :: l) := by
  induction l with
  | nil => simp [insertSorted]
  | cons y ys ih =>
    unfold insertSorted
    split
    · exact List.Perm.refl _
    · exact (List.Perm.cons y ih).trans (List.Perm.swap x y ys)

theorem perm_sortSlice (less : File → File → Bool) (l : List File) :
    (sortSlice less l).Perm l := by
  induction l with
  | nil => simp [sortSlice]
  | cons x xs ih =>
    unfold sortSlice
    exact (perm_insertSorted less x _).trans (List.Perm.cons x ih)

theorem pairwise_insertSorted (less : File → File → Bool)
    (hasymm : ∀ a b, less a b = true → less b a = false)
    (htrans : ∀ a b c, less a b = true → less b c = true → less a c = true)
    (x : File) (l : List File) (hl : l.Pairwise (fun a b => less b a = false)) :
    (insertSorted less x l).Pairwise (fun a b => less b a = false) := by
  induction l with
  | nil => simp [insertSorted]
  | cons y ys ih =>
    obtain ⟨hy, hys⟩ := List.pairwise_cons.1 hl
    unfold insertSorted
    by_cases hxy : less x y = true
    · rw [if_pos hxy]
      refine List.pairwise_cons.2 ⟨?_, hl⟩
      intro z hz
      rcases List.mem_cons.1 hz with hz | hz
      · rw [hz]; exact hasymm x y hxy
      · by_contra hzx
        have hzx2 : less z x = true := by simpa using hzx
        have := htrans z x y hzx2 hxy
        rw [hy z hz] at this
        exact Bool.false_ne_true this
    · rw [if_neg hxy]
      refine List.pairwise_cons.2 ⟨?_, ih hys⟩
      intro z hz
      rcases List.mem_cons.1 ((perm_insertSorted less x ys).subset hz) with hz | hz
      · rw [hz]; simpa using hxy
      · exact hy z hz

theorem pairwise_sortSlice (less : File → File → Bool)
    (hasymm : ∀ a b, less a b = true → less b a = false)
    (htrans : ∀ a b c, less a b = true → less b c = true → less a c = true)
    (l : List File) : (sortSlice less l).Pairwise (fun a b => less b a = false) := by
  induction l with
  | nil => simp [sortSlice]
  | cons x xs ih =>
    unfold sortSlice
    exact pairwise_insertSorted less hasymm htrans x _ ih

theorem descLess_asymm (a b : File) (h : descLess a b = true) : descLess b a = false := by
  rw [descLess_iff] at h
  rw [← Bool.not_eq_true, descLess_iff]
  exact lt_asymm h

theorem descLess_trans (a b c : File) (h1 : descLess a b = true) (h2 : descLess b c = true) :
    descLess a c = true := by
  rw [descLess_iff] at h1 h2 ⊢
  exact lt_trans h2 h1

theorem ascLess_asymm (a b : File) (h : ascLess a b = true) : ascLess b a = false := by
  rw [ascLess_iff] at h
  rw [← Bool.not_eq_true, ascLess_iff]
  exact lt_asymm h

theorem ascLess_trans (a b c : File) (h1 : ascLess a b = true) (h2 : ascLess b c = true) :
    ascLess a c = true := by
  rw [ascLess_iff] at h1 h2 ⊢
  exact lt_trans h1 h2

theorem sliceSorted_descending (f : Files) : SliceSorted descLess f (Files.Descending f) :=
  ⟨perm_sortSlice descLess f, pairwise_sortSlice descLess descLess_asymm descLess_trans f⟩

theorem sliceSorted_ascending (f : Files) : SliceSorted ascLess f (Files.Ascending f) :=
  ⟨perm_sortSlice ascLess f, pairwise_sortSlice ascLess ascLess_asymm ascLess_trans f⟩

theorem descOrdered_of_not_less (a b : File) (h : descLess b a = false) : DescOrdered a b := by
  rw [← Bool.not_eq_true, descLess_iff, not_lt] at h
  rcases lt_or_eq_of_le h with h | h
  · rcases (sortKey_lt_iff b a).1 h with h | ⟨h1, h2⟩ | ⟨h1, h2, h3⟩
    · exact Or.inl h
    · exact Or.inr (Or.inl ⟨h1.symm, h2⟩)
    · exact Or.inr (Or.inr ⟨h1.symm, h2.symm, le_of_lt h3⟩)
  · obtain ⟨h1, h2, h3⟩ := (sortKey_eq_iff b a).1 h
    exact Or.inr (Or.inr ⟨h1.symm, h2.symm, le_of_eq h3⟩)

theorem ascOrdered_of_not_less (a b : File) (h : ascLess b a = false) : AscOrdered a b := by
  rw [← Bool.not_eq_true, ascLess_iff, not_lt] at h
  rcases lt_or_eq_of_le h with h | h
  · rcases (sortKey_lt_iff a b).1 h with h | ⟨h1, h2⟩ | ⟨h1, h2, h3⟩
    · exact Or.inl h
    · exact Or.inr (Or.inl ⟨h1, h2⟩)
    · exact Or.inr (Or.inr ⟨h1, h2, le_of_lt h3⟩)
  · obtain ⟨h1, h2, h3⟩ := (sortKey_eq_iff a b).1 h
    exact Or.inr (Or.inr ⟨h1, h2, le_of_eq h3⟩)

theorem sort_descending (f : Files) : Files.Sort f Descending = Files.Descending f := by
  simp [Files.Sort]

theorem sort_ascending (f : Files) : Files.Sort f Ascending = Files.Ascending f := by
  simp [Files.Sort, Ascending, Descending]

theorem sort_other (f : Files) (o : SortOption) (h : o ≠ Ascending) :
    Files.Sort f o = Files.Descending f := by
  unfold Files.Sort
  split_ifs <;> rfl

theorem sliceSorted_sort_descending (f : Files) (o : SortOption) (h : o ≠ Ascending) :
    SliceSorted descLess f (Files.Sort f o) := by
  rw [sort_other f o h]
  exact sliceSorted_descending f

theorem sliceSorted_sort_ascending (f : Files) :
    SliceSorted ascLess f (Files.Sort f Ascending) := by
  rw [sort_ascending]
  exact sliceSorted_ascending f

theorem perm_sort (f : Files) (o : SortOption) : (Files.Sort f o).Perm f := by
  by_cases h : o = Ascending
  · rw [h]; exact (sliceSorted_sort_ascending f).1
  · exact (sliceSorted_sort_descending f o h).1

theorem eq_of_name_eq {f : Files} (hf : (f.map File.Name).Nodup) {a b : File}
    (ha : a ∈ f) (hb : b ∈ f) (h : a.Name = b.Name) : a = b :=
  List.inj_on_of_nodup_map hf ha hb h

theorem sliceSorted_unique_desc {f out1 out2 : Files} (hf : (f.map File.Name).Nodup)
    (h1 : SliceSorted descLess f out1) (h2 : SliceSorted descLess f out2) : out1 = out2 := by
  refine List.Perm.eq_of_sorted ?_ h1.2 h2.2 (h1.1.trans h2.1.symm)
  intro a b ha hb hab hba
  rw [← Bool.not_eq_true, descLess_iff, not_lt] at hab hba
  have hk := le_antisymm hab hba
  exact eq_of_name_eq hf (h1.1.subset ha) (h2.1.subset hb)
    ((sortKey_eq_iff b a).1 hk).2.2.symm

theorem sliceSorted_unique_asc {f out1 out2 : Files} (hf : (f.map File.Name).Nodup)
    (h1 : SliceSorted ascLess f out1) (h2 : SliceSorted ascLess f out2) : out1 = out2 := by
  refine List.Perm.eq_of_sorted ?_ h1.2 h2.2 (h1.1.trans h2.1.symm)
  intro a b ha hb hab hba
  rw [← Bool.not_eq_true, ascLess_iff, not_lt] at hab hba
  have hk := le_antisymm hba hab
  exact eq_of_name_eq hf (h1.1.subset ha) (h2.1.subset hb)
    ((sortKey_eq_iff b a).1 hk).2.2.symm

theorem SliceSorted.of_perm {less : File → File → Bool} {f g out : Files}
    (hg : g.Perm f) (h : SliceSorted less g out) : SliceSorted less f out :=
  ⟨h.1.trans hg, h.2⟩

theorem sort_congr {f g : Files} (o : SortOption) (hf : (f.map File.Name).Nodup)
    (hg : g.Perm f) : Files.Sort g o = Files.Sort f o := by
  by_cases h : o = Ascending
  · rw [h]
    exact sliceSorted_unique_asc hf ((sliceSorted_sort_ascending g).of_perm hg)
      (sliceSorted_sort_ascending f)
  · exact sliceSorted_unique_desc hf ((sliceSorted_sort_descending g o h).of_perm hg)
      (sliceSorted_sort_descending f o h)

theorem sortKey_ne_of_name_ne {a b : File} (h : a.Name ≠ b.Name) : sortKey a ≠ sortKey b :=
  fun hk => h ((sortKey_eq_iff a b).1 hk).2.2

/-! ## Theorems about `Sort` -/

/-- C7: `Sort(Descending)` returns a rearrangement of the catalog in which every record
`a` placed before a record `b` has a larger `Size`, or the same `Size` and a larger
`Hash`, or the same `Size` and `Hash` and a `Name` that is larger or equal;
`Sort(Ascending)` returns a rearrangement that obeys the same chain with every
comparison reversed.  The same holds of every result that `sort.Slice` may return
for the two closures, whatever its algorithm. -/
theorem sort_is_sorted_permutation (f : Files) :
    ((Files.Sort f Descending).Perm f ∧ (Files.Sort f Descending).Pairwise DescOrdered) ∧
    ((Files.Sort f Ascending).Perm f ∧ (Files.Sort f Ascending).Pairwise AscOrdered) ∧
    (∀ out : Files, SliceSorted descLess f out → out.Perm f ∧ out.Pairwise DescOrdered) ∧
    (∀ out : Files, SliceSorted ascLess f out → out.Perm f ∧ out.Pairwise AscOrdered) := by
  rw [sort_descending, sort_ascending]
  have hd : ∀ out : Files, SliceSorted descLess f out →
      out.Perm f ∧ out.Pairwise DescOrdered :=
    fun out h => ⟨h.1, h.2.imp (fun {a b} hab => descOrdered_of_not_less a b hab)⟩
  have ha : ∀ out : Files, SliceSorted ascLess f out →
      out.Perm f ∧ out.Pairwise AscOrdered :=
    fun out h => ⟨h.1, h.2.imp (fun {a b} hab => ascOrdered_of_not_less a b hab)⟩
  exact ⟨hd _ (sliceSorted_descending f), ha _ (sliceSorted_ascending f), hd, ha⟩

/-- Witness of C7 on the scenario catalog, for the result of the descending sort. -/
theorem sort_is_sorted_permutation_witness :
    SliceSorted descLess scenarioCatalog (Files.Sort scenarioCatalog Descending) ∧
    (Files.Sort scenarioCatalog Descending).Pairwise DescOrdered :=
  ⟨sliceSorted_sort_descending scenarioCatalog Descending (by decide),
   ((sort_is_sorted_permutation scenarioCatalog).2.2.1 _
      (sliceSorted_sort_descending scenarioCatalog Descending (by decide))).2⟩

/-- C8: the comparators decide every pair of records with different names, in exactly
one direction, so sorting is deterministic: for a catalog with pairwise distinct
paths, sorting any rearrangement of it gives the same sequence as sorting the
catalog itself, in each direction, and every result that `sort.Slice` may return for
the rearrangement is that sequence. -/
theorem sort_deterministic (f g : Files) (o : SortOption)
    (hf : (f.map File.Name).Nodup) (hg : g.Perm f) :
    (∀ a b : File, a.Name ≠ b.Name →
      ((descLess a b = true ∧ descLess b a = false) ∨
        (descLess a b = false ∧ descLess b a = true)) ∧
      ((ascLess a b = true ∧ ascLess b a = false) ∨
        (ascLess a b = false ∧ ascLess b a = true))) ∧
    Files.Sort g o = Files.Sort f o ∧
    (∀ out : Files, SliceSorted descLess g out → out = Files.Sort f Descending) ∧
    (∀ out : Files, SliceSorted ascLess g out → out = Files.Sort f Ascending) := by
  refine ⟨?_, sort_congr o hf hg, ?_, ?_⟩
  · intro a b hab
    rcases lt_or_gt_of_ne (sortKey_ne_of_name_ne hab) with h | h
    · refine ⟨Or.inr ⟨descLess_asymm b a ((descLess_iff b a).2 h), (descLess_iff b a).2 h⟩,
        Or.inl ⟨(ascLess_iff a b).2 h, ascLess_asymm a b ((ascLess_iff a b).2 h)⟩⟩
    · refine ⟨Or.inl ⟨(descLess_iff a b).2 h, descLess_asymm a b ((descLess_iff a b).2 h)⟩,
        Or.inr ⟨ascLess_asymm b a ((ascLess_iff b a).2 h), (ascLess_iff b a).2 h⟩⟩
  · intro out hout
    exact sliceSorted_unique_desc hf (hout.of_perm hg)
      (sliceSorted_sort_descending f Descending (by decide))
  · intro out hout
    exact sliceSorted_unique_asc hf (hout.of_perm hg) (sliceSorted_sort_ascending f)

/-- Witness of C8: the scenario catalog and its reversal sort to the same sequence. -/
theorem sort_deterministic_witness :
    (scenarioCatalog.map File.Name).Nodup ∧ scenarioCatalog.reverse.Perm scenarioCatalog ∧
    Files.Sort scenarioCatalog.reverse Ascending = Files.Sort scenarioCatalog Ascending :=
  ⟨by decide, by decide,
   (sort_deterministic scenarioCatalog scenarioCatalog.reverse Ascending (by decide)
      (by decide)).2.1⟩

/-- C9: for a catalog with pairwise distinct paths, sorting ascending, then descending,
then ascending again gives the same sequence as sorting ascending once. -/
theorem sort_asc_desc_asc (f : Files) (hf : (f.map File.Name).Nodup) :
    Files.Sort (Files.Sort (Files.Sort f Ascending) Descending) Ascending =
      Files.Sort f Ascending :=
  sort_congr Ascending hf ((perm_sort _ Descending).trans (perm_sort f Ascending))

/-- Witness of C9 on the scenario catalog. -/
theorem sort_asc_desc_asc_witness :
    (scenarioCatalog.map File.Name).Nodup ∧
    Files.Sort (Files.Sort (Files.Sort scenarioCatalog Ascending) Descending) Ascending =
      Files.Sort scenarioCatalog Ascending :=
  ⟨by decide, sort_asc_desc_asc scenarioCatalog (by decide)⟩

/-! ## Lemmas about catalogs ordered by size -/

theorem SizeSorted.sublist {l m : List File} (h : SizeSorted l) (hm : m.Sublist l) :
    SizeSorted m := by
  rcases h with h | h
  · exact Or.inl (h.sublist hm)
  · exact Or.inr (h.sublist hm)

theorem SizeSorted.between {x a b : File} {l1 l2 l3 : List File}
    (h : SizeSorted (x :: (l1 ++ l2 ++ l3))) (ha : a ∈ l1) (hb : b ∈ l2)
    (hxb : x.Size = b.Size) : a.Size = x.Size := by
  have hxa : a ∈ l1 ++ l2 ++ l3 := List.mem_append_left _ (List.mem_append_left _ ha)
  rcases h with h | h
  · obtain ⟨h1, h2⟩ := List.pairwise_cons.1 h
    have h3 := (List.pairwise_append.1 (List.pairwise_append.1 h2).1).2.2 a ha b hb
    have h4 := h1 a hxa
    omega
  · obtain ⟨h1, h2⟩ := List.pairwise_cons.1 h
    have h3 := (List.pairwise_append.1 (List.pairwise_append.1 h2).1).2.2 a ha b hb
    have h4 := h1 a hxa
    omega

theorem split_by_size (l : List File) (size : Int) (h : SizeSorted l) :
    ∃ front run back : List File, l = front ++ run ++ back ∧
      (∀ r ∈ front, r.Size ≠ size) ∧ (∀ r ∈ run, r.Size = size) ∧
      (∀ r ∈ back, r.Size ≠ size) := by
  induction l with
  | nil => exact ⟨[], [], [], rfl, by simp, by simp, by simp⟩
  | cons x xs ih =>
    obtain ⟨front, run, back, hl, hf, hr, hb⟩ := ih (h.sublist (List.sublist_cons_self x xs))
    by_cases hx : x.Size = size
    · cases front with
      | nil =>
        refine ⟨[], x :: run, back, by rw [hl]; rfl, by simp, ?_, hb⟩
        intro r hr2
        rcases List.mem_cons.1 hr2 with h1 | h1
        · rw [h1]; exact hx
        · exact hr r h1
      | cons y ys =>
        have hrun : ∀ r ∈ run, False := by
          intro r hr2
          have hyx : y.Size = x.Size :=
            SizeSorted.between (hl ▸ h) (List.mem_cons_self y ys) hr2 (hx.trans (hr r hr2).symm)
          exact hf y (List.mem_cons_self y ys) (hyx.trans hx)
        refine ⟨[], [x], xs, rfl, by simp, by simp [hx], ?_⟩
        intro r hr2
        rw [hl] at hr2
        rcases List.mem_append.1 hr2 with h1 | h1
        · rcases List.mem_append.1 h1 with h2 | h2
          · exact hf r h2
          · exact (hrun r h2).elim
        · exact hb r h1
    · refine ⟨x :: front, run, back, by rw [hl]; rfl, ?_, hr, hb⟩
      intro r hr2
      rcases List.mem_cons.1 hr2 with h1 | h1
      · rw [h1]; exact hx
      · exact hf r h1

theorem filter_size_stamp_self (s : Int) (size : Int) (l : List File)
    (h : ∀ r ∈ l, r.Size = size) :
    (stamp s l).filter (fun r => decide (r.Size = size)) = stamp s l := by
  apply List.filter_eq_self.2
  intro y hy
  obtain ⟨x, hx, he⟩ := mem_stamp hy
  simp only [decide_eq_true_eq]
  rw [← eraseId_size he]
  exact h x hx

theorem filter_size_stamp_nil (s : Int) (size : Int) (l : List File)
    (h : ∀ r ∈ l, r.Size ≠ size) :
    (stamp s l).filter (fun r => decide (r.Size = size)) = [] := by
  apply List.filter_eq_nil_iff.2
  intro y hy
  obtain ⟨x, hx, he⟩ := mem_stamp hy
  simp only [decide_eq_true_eq]
  rw [← eraseId_size he]
  exact h x hx

theorem sizeSorted_sort (g : Files) (o : SortOption) : SizeSorted (Files.Sort g o) := by
  by_cases ho : o = Ascending
  · rw [ho]
    refine Or.inl ((sliceSorted_sort_ascending g).2.imp ?_)
    intro a b hab
    rcases ascOrdered_of_not_less a b hab with h | ⟨h, _⟩ | ⟨h, _⟩
    · exact le_of_lt h
    · exact le_of_eq h
    · exact le_of_eq h
  · refine Or.inr ((sliceSorted_sort_descending g o ho).2.imp ?_)
    intro a b hab
    rcases descOrdered_of_not_less a b hab with h | ⟨h, _⟩ | ⟨h, _⟩
    · exact le_of_lt h
    · exact le_of_eq h.symm
    · exact le_of_eq h.symm

theorem idsOfSet_run (f : Files) (keys : List String) (hs : SizeSorted f)
    (h : RangeOrder f keys) (size : Int) (hash : String) :
    ContiguousRun (idsOfSet (MapDuplicates f keys) size hash) := by
  have hsplit : idsOfSet (MapDuplicates f keys) size hash =
      (((MapDuplicates f keys).filter (fun r => decide (r.Hash = hash))).filter
        (fun r => decide (r.Size = size))).map File.id := by
    unfold idsOfSet
    rw [List.filter_filter]
    congr 1
    apply List.filter_congr
    intro r _
    simp
  rw [hsplit, MapDuplicates_eq]
  obtain ⟨t, ht, he⟩ := filter_stamp_flatMap keys h.nodup (duplicatesOf f) hash 1
  rw [he]
  by_cases hm : hash ∈ keys
  · rw [if_pos hm]
    have hsub : (withHash hash (duplicatesOf f)).Sublist f :=
      (List.filter_sublist _).trans (List.filter_sublist _)
    obtain ⟨front, run, back, hl, hf, hr, hb⟩ :=
      split_by_size (withHash hash (duplicatesOf f)) size (hs.sublist hsub)
    rw [hl, stamp_append, stamp_append, List.filter_append, List.filter_append,
      filter_size_stamp_nil _ size front hf, filter_size_stamp_self _ size run hr,
      filter_size_stamp_nil _ size back hb, List.nil_append, List.append_nil, map_id_stamp]
    exact contiguousRun_range _ _ (by omega)
  · rw [if_neg hm]
    exact contiguousRun_nil

/-! ## Theorems about the ids of a duplicate set -/

/-- Remark on the order of the catalog: in a catalog that is not ordered by size and
holds one digest at the two sizes 1, 2, 1, 2, the records of size 1 receive the ids
1 and 3.  `main` passes no such catalog to `MapDuplicates`: it sorts first. -/
theorem unordered_catalog_breaks_set_run :
    ¬ SizeSorted collidingCatalog ∧
    RangeOrder collidingCatalog ["h"] ∧
    idsOfSet (MapDuplicates collidingCatalog ["h"]) 1 "h" = [1, 3] := by
  refine ⟨by decide, by decide, by decide⟩

/-- C6: for every catalog as `Sort` leaves it, whatever the option, and every duplicate
set of the output of `MapDuplicates` (the output records sharing one `Size` and
`Hash`), the display ids of the members form a contiguous run of distinct positive
integers: with `k` members of which `m` is the smallest they are exactly
`m, m+1, ..., m+k-1`.  The same holds for every catalog ordered by size, upwards or
downwards, and, in any catalog, for the records sharing one `Hash`. -/
theorem mapDuplicates_set_ids_contiguous (g : Files) (o : SortOption) (keys : List String)
    (h : RangeOrder (Files.Sort g o) keys) :
    (∀ (size : Int) (hash : String),
      ContiguousRun (idsOfSet (MapDuplicates (Files.Sort g o) keys) size hash)) ∧
    (∀ (f : Files) (order : List String), SizeSorted f → RangeOrder f order →
      ∀ (size : Int) (hash : String),
        ContiguousRun (idsOfSet (MapDuplicates f order) size hash)) ∧
    (∀ (f : Files) (order : List String), RangeOrder f order →
      ∀ hash : String, ContiguousRun (idsOfHash (MapDuplicates f order) hash)) :=
  ⟨fun size hash => idsOfSet_run _ keys (sizeSorted_sort g o) h size hash,
   fun f order hs hr size hash => idsOfSet_run f order hs hr size hash,
   fun f order hr hash => idsOfHash_run f order hr hash⟩

/-- Witness of C6 on the scenario catalog sorted downwards, with the keys in the order
of the map. -/
theorem mapDuplicates_set_ids_contiguous_witness :
    RangeOrder (Files.Sort scenarioCatalog Descending)
      (collectDuplicates (Files.Sort scenarioCatalog Descending)).keys ∧
    ContiguousRun
      (idsOfSet
        (MapDuplicates (Files.Sort scenarioCatalog Descending)
          (collectDuplicates (Files.Sort scenarioCatalog Descending)).keys) 1 "x") :=
  ⟨List.Perm.refl _,
   (mapDuplicates_set_ids_contiguous scenarioCatalog Descending
      (collectDuplicates (Files.Sort scenarioCatalog Descending)).keys
      (List.Perm.refl _)).1 1 "x"⟩

/-! ## Lemmas about what `DeleteFiles` touches -/

theorem sweep_removed (l : List File) (freeSize : Int) (fs : FileSystem) (q : String)
    (hq : q ∈ fs.present) (hgone : q ∉ (sweep l freeSize fs).2.present) :
    q ∈ l.map File.Name := by
  induction l generalizing freeSize fs with
  | nil => exact absurd hq hgone
  | cons x xs ih =>
    simp only [sweep] at hgone
    rcases h : osRemove fs x.Name with ⟨_ | err, fs1⟩
    · rw [h] at hgone
      by_cases hqx : q = x.Name
      · simp [hqx]
      · have h1 : q ∈ fs1.present := by
          rw [(osRemove_ok h).1]
          exact List.mem_filter.2 ⟨hq, by simpa using hqx⟩
        exact List.mem_cons_of_mem _ (ih _ fs1 h1 hgone)
    · rw [h] at hgone
      have h1 : (osRemove fs x.Name).1 = some err := by rw [h]
      have h2 := (osRemove_fail_present h1).1
      rw [h] at h2
      exact absurd (h2 ▸ hq) hgone

theorem sweep_calls (l : List File) (freeSize : Int) (fs : FileSystem) (q : String)
    (hq : q ∈ (sweep l freeSize fs).2.removeCalls) :
    q ∈ fs.removeCalls ∨ q ∈ l.map File.Name := by
  induction l generalizing freeSize fs with
  | nil => exact Or.inl hq
  | cons x xs ih =>
    simp only [sweep] at hq
    have hc := osRemove_calls fs x.Name
    rcases h : osRemove fs x.Name with ⟨_ | err, fs1⟩
    · rw [h] at hq hc
      rcases ih _ fs1 hq with h1 | h1
      · rw [hc] at h1
        rcases List.mem_append.1 h1 with h2 | h2
        · exact Or.inl h2
        · have h3 : q = x.Name := by simpa using h2
          exact Or.inr (by simp [h3])
      · exact Or.inr (List.mem_cons_of_mem _ h1)
    · rw [h] at hq hc
      rw [hc] at hq
      rcases List.mem_append.1 hq with h2 | h2
      · exact Or.inl h2
      · have h3 : q = x.Name := by simpa using h2
        exact Or.inr (by simp [h3])

theorem finish_snd (r : Except RemoveError Int × FileSystem) : (finish r).2 = r.2 := by
  rcases r with ⟨e | v, fs⟩ <;> rfl

theorem mem_matched_names {f : Files} {ids : List Int} {q : String}
    (h : q ∈ (matched f ids).map File.Name) : ∃ r ∈ f, r.id ∈ ids ∧ r.Name = q := by
  obtain ⟨r, hr, hn⟩ := List.mem_map.1 h
  exact ⟨r, (mem_matched hr).1, (mem_matched hr).2, hn⟩

theorem filter_id_nil (f : Files) (n : Int) (h : n ∉ f.map File.id) :
    f.filter (fun r => decide (r.id = n)) = [] := by
  apply List.filter_eq_nil_iff.2
  intro r hr
  simp only [decide_eq_true_eq]
  intro hrn
  exact h (hrn ▸ List.mem_map_of_mem _ hr)

theorem matched_cons (f : Files) (n : Int) (ns : List Int) :
    matched f (n :: ns) = f.filter (fun r => decide (r.id = n)) ++ matched f ns := by
  simp [matched]

theorem matched_filter (f : Files) (ids : List Int) :
    matched f (ids.filter (fun n => decide (n ∈ f.map File.id))) = matched f ids := by
  induction ids with
  | nil => rfl
  | cons n ns ih =>
    by_cases h : n ∈ f.map File.id
    · rw [List.filter_cons_of_pos (by simpa using h), matched_cons, matched_cons, ih]
    · rw [List.filter_cons_of_neg (by simpa using h), matched_cons, ih, filter_id_nil f n h,
        List.nil_append]

theorem matched_nil_of_unmatched (f : Files) (ids : List Int)
    (h : ∀ n ∈ ids, n ∉ f.map File.id) : matched f ids = [] := by
  induction ids with
  | nil => rfl
  | cons n ns ih =>
    rw [matched_cons, filter_id_nil f n (h n (List.mem_cons_self _ _)),
      ih (fun m hm => h m (List.mem_cons_of_mem _ hm)), List.append_nil]

/-! ## Theorems about what `DeleteFiles` touches -/

/-- C11: `DeleteFiles` only removes files whose id is selected and present: every file
that it removes, and every path that it passes to `os.Remove`, is the `Name` of a
record of the list whose id occurs in the selection; the ids of the selection that
match no record change nothing, the call behaving as with those ids dropped; and
when no id matches, nothing is removed or attempted and the result is 0 with no
error. -/
theorem deleteFiles_only_selected (f : Files) (s : List Int) (fs : FileSystem) :
    (∀ q ∈ fs.present, q ∉ (DeleteFiles f s fs).2.present →
        ∃ r ∈ f, r.id ∈ s ∧ r.Name = q) ∧
    (∀ q ∈ (DeleteFiles f s fs).2.removeCalls,
        q ∈ fs.removeCalls ∨ ∃ r ∈ f, r.id ∈ s ∧ r.Name = q) ∧
    DeleteFiles f s fs =
      DeleteFiles f (s.filter (fun n => decide (n ∈ f.map File.id))) fs ∧
    ((∀ n ∈ s, n ∉ f.map File.id) → DeleteFiles f s fs = ((0, none), fs)) := by
  refine ⟨?_, ?_, ?_, ?_⟩
  · intro q hq hgone
    rw [DeleteFiles_eq, finish_snd] at hgone
    exact mem_matched_names (sweep_removed _ 0 fs q hq hgone)
  · intro q hq
    rw [DeleteFiles_eq, finish_snd] at hq
    rcases sweep_calls _ 0 fs q hq with h | h
    · exact Or.inl h
    · exact Or.inr (mem_matched_names h)
  · rw [DeleteFiles_eq, DeleteFiles_eq, matched_filter]
  · intro h
    rw [DeleteFiles_eq, matched_nil_of_unmatched f s h]
    rfl

/-- Witness of C11: the ids 7 and 8 match none of the three copies. -/
theorem deleteFiles_only_selected_witness :
    (∀ n ∈ ([7, 8] : List Int), n ∉ threeCopies.map File.id) ∧
    DeleteFiles threeCopies [7, 8] diskABC = ((0, none), diskABC) :=
  ⟨by decide, (deleteFiles_only_selected threeCopies [7, 8] diskABC).2.2.2 (by decide)⟩

/-! ## Lemmas about the layout of the output of `MapDuplicates` -/

theorem eraseId_name {x y : File} (h : x.eraseId = y.eraseId) : x.Name = y.Name := by
  have := congrArg File.Name h
  simpa [File.eraseId] using this

theorem id_bounds_of_mem_stamp {s : Int} {l : List File} {y : File} (h : y ∈ stamp s l) :
    s ≤ y.id ∧ y.id < s + (l.length : Int) := by
  induction l generalizing s with
  | nil => simp [stamp] at h
  | cons x xs ih =>
    simp only [stamp, List.mem_cons] at h
    rcases h with h | h
    · subst h
      simp only [List.length_cons, Nat.cast_succ]
      constructor <;> omega
    · have := ih h
      simp only [List.length_cons, Nat.cast_succ]
      constructor <;> omega

theorem pairwise_id_stamp (s : Int) (l : List File) :
    (stamp s l).Pairwise (fun a b => a.id < b.id) := by
  induction l generalizing s with
  | nil => simp [stamp]
  | cons x xs ih =>
    simp only [stamp]
    refine List.pairwise_cons.2 ⟨?_, ih (s + 1)⟩
    intro y hy
    have := (id_bounds_of_mem_stamp hy).1
    show s < y.id
    omega

theorem hash_mem_of_mem_stamp_flatMap {s : Int} {ks : List String} {l : List File} {y : File}
    (h : y ∈ stamp s (ks.flatMap (fun k => withHash k l))) : y.Hash ∈ ks := by
  obtain ⟨x, hx, he⟩ := mem_stamp h
  obtain ⟨k, hk, hxk⟩ := List.mem_flatMap.1 hx
  rw [← eraseId_hash he, (mem_withHash hxk).2]
  exact hk

theorem MapDuplicates_split (f : Files) (pre post : List String) :
    MapDuplicates f (pre ++ post) =
      stamp 1 (pre.flatMap (fun k => withHash k (duplicatesOf f))) ++
        stamp (1 + ((pre.flatMap (fun k => withHash k (duplicatesOf f))).length : Int))
          (post.flatMap (fun k => withHash k (duplicatesOf f))) := by
  rw [MapDuplicates_eq, List.flatMap_append, stamp_append]

theorem mem_MapDuplicates_dup {f : Files} {keys : List String} {y : File}
    (h : y ∈ MapDuplicates f keys) : ∃ x ∈ duplicatesOf f, x.eraseId = y.eraseId := by
  rw [MapDuplicates_eq] at h
  obtain ⟨x, hx, he⟩ := mem_stamp h
  obtain ⟨k, _, hxk⟩ := List.mem_flatMap.1 hx
  exact ⟨x, (mem_withHash hxk).1, he⟩

theorem exists_in_MapDuplicates {f : Files} {keys : List String} (h : RangeOrder f keys)
    {p : File} (hp : p ∈ duplicatesOf f) : ∃ q ∈ MapDuplicates f keys, q.eraseId = p.eraseId := by
  have h1 : p.eraseId ∈ (duplicatesOf f).map File.eraseId := List.mem_map_of_mem _ hp
  rw [← List.Perm.mem_iff (MapDuplicates_eraseId_perm f keys h)] at h1
  obtain ⟨q, hq, he⟩ := List.mem_map.1 h1
  exact ⟨q, hq, he⟩

theorem mem_duplicatesOf {f : Files} {x : File} :
    x ∈ duplicatesOf f ↔ x ∈ f ∧ hasPartner f x := by
  simp [duplicatesOf]

/-! ## Lemmas about the hash headers of `PrintDuplicates` -/

theorem printDuplicatesLoop_step (file : File) (rest : List File) (sizeControl : Int)
    (hashControl : String) :
    printDuplicatesLoop (file :: rest) sizeControl hashControl =
      (if sizeControl ≠ wrapInt file.Size then [OutputLine.sizeHeader file.Size] else []) ++
      (if hashControl ≠ file.Hash then [OutputLine.hashHeader file.Hash] else []) ++
      OutputLine.entry file.id file.Name ::
        printDuplicatesLoop rest (wrapInt file.Size) file.Hash := by
  rw [printDuplicatesLoop]
  have h1 : (if sizeControl ≠ wrapInt file.Size then wrapInt file.Size else sizeControl) =
      wrapInt file.Size := by
    split_ifs with h
    · rfl
    · exact not_not.1 h
  have h2 : (if hashControl ≠ file.Hash then file.Hash else hashControl) = file.Hash := by
    split_ifs with h
    · rfl
    · exact not_not.1 h
  rw [h1, h2]

theorem count_hashHeader_step (file : File) (rest : List File) (sizeControl : Int)
    (hashControl hash : String) :
    (printDuplicatesLoop (file :: rest) sizeControl hashControl).count
        (OutputLine.hashHeader hash) =
      (if hashControl ≠ file.Hash ∧ file.Hash = hash then 1 else 0) +
        (printDuplicatesLoop rest (wrapInt file.Size) file.Hash).count
          (OutputLine.hashHeader hash) := by
  rw [printDuplicatesLoop_step, List.count_append, List.count_append, List.count_cons]
  have h1 : (if sizeControl ≠ wrapInt file.Size then [OutputLine.sizeHeader file.Size]
      else []).count (OutputLine.hashHeader hash) = 0 := by
    split_ifs <;> simp
  have h2 : (if hashControl ≠ file.Hash then [OutputLine.hashHeader file.Hash]
      else []).count (OutputLine.hashHeader hash) =
      if hashControl ≠ file.Hash ∧ file.Hash = hash then 1 else 0 := by
    by_cases hc : hashControl ≠ file.Hash
    · by_cases hh : file.Hash = hash
      · rw [if_pos hc, if_pos ⟨hc, hh⟩, hh, List.count_cons_self]
        rfl
      · rw [if_pos hc, if_neg (fun h => hh h.2)]
        simp [List.count_cons, hh]
    · rw [if_neg hc, if_neg (fun h => hc h.1)]
      rfl
  rw [h1, h2]
  simp

theorem count_hashHeader_of_ne (l : List File) (sizeControl : Int) (hashControl hash : String)
    (hne : ∀ r ∈ l, r.Hash ≠ hash) :
    (printDuplicatesLoop l sizeControl hashControl).count (OutputLine.hashHeader hash) = 0 := by
  induction l generalizing sizeControl hashControl with
  | nil => simp [printDuplicatesLoop]
  | cons x xs ih =>
    rw [count_hashHeader_step, ih _ _ (fun r hr => hne r (List.mem_cons_of_mem _ hr))]
    simp [hne x (List.mem_cons_self _ _)]

theorem count_hashHeader_started (l : List File) (sizeControl : Int) (hash : String)
    (hall : ∀ r ∈ l, r.Hash = hash) :
    (printDuplicatesLoop l sizeControl hash).count (OutputLine.hashHeader hash) = 0 := by
  induction l generalizing sizeControl with
  | nil => simp [printDuplicatesLoop]
  | cons x xs ih =>
    have hx := hall x (List.mem_cons_self _ _)
    rw [count_hashHeader_step, hx, ih _ (fun r hr => hall r (List.mem_cons_of_mem _ hr))]
    simp

theorem count_hashHeader_run_after (run after : List File) (sizeControl : Int)
    (hashControl hash : String) (hr : ∀ r ∈ run, r.Hash = hash)
    (ha : ∀ r ∈ after, r.Hash ≠ hash) (started : hashControl = hash) :
    (printDuplicatesLoop (run ++ after) sizeControl hashControl).count
      (OutputLine.hashHeader hash) = 0 := by
  induction run generalizing sizeControl hashControl with
  | nil => exact count_hashHeader_of_ne after _ _ hash ha
  | cons x xs ih =>
    have hx := hr x (List.mem_cons_self _ _)
    show (printDuplicatesLoop (x :: (xs ++ after)) sizeControl hashControl).count _ = 0
    rw [count_hashHeader_step, ih _ _ (fun r hr2 => hr r (List.mem_cons_of_mem _ hr2)) hx]
    simp [started, hx]

theorem count_hashHeader_le_one_from (before run after : List File) (hash : String)
    (hb : ∀ r ∈ before, r.Hash ≠ hash) (hr : ∀ r ∈ run, r.Hash = hash)
    (ha : ∀ r ∈ after, r.Hash ≠ hash) (sizeControl : Int) (hashControl : String) :
    (printDuplicatesLoop (before ++ run ++ after) sizeControl hashControl).count
      (OutputLine.hashHeader hash) ≤ 1 := by
  induction before generalizing sizeControl hashControl with
  | nil =>
    cases run with
    | nil =>
      rw [List.nil_append, List.nil_append, count_hashHeader_of_ne after _ _ hash ha]
      exact Nat.zero_le 1
    | cons x xs =>
      have hx := hr x (List.mem_cons_self _ _)
      show (printDuplicatesLoop (x :: (xs ++ after)) sizeControl hashControl).count _ ≤ 1
      rw [count_hashHeader_step,
        count_hashHeader_run_after xs after _ _ hash
          (fun r hr2 => hr r (List.mem_cons_of_mem _ hr2)) ha hx]
      split_ifs <;> simp
  | cons x xs ih =>
    show (printDuplicatesLoop (x :: (xs ++ run ++ after)) sizeControl hashControl).count _ ≤ 1
    rw [count_hashHeader_step]
    have hx := hb x (List.mem_cons_self _ _)
    have := ih (fun r hr2 => hb r (List.mem_cons_of_mem _ hr2)) (wrapInt x.Size) x.Hash
    simp only [hx, and_false, if_false, zero_add]
    exact this

theorem count_hashHeader_le_one (before run after : List File) (hash : String)
    (hb : ∀ r ∈ before, r.Hash ≠ hash) (hr : ∀ r ∈ run, r.Hash = hash)
    (ha : ∀ r ∈ after, r.Hash ≠ hash) :
    (PrintDuplicates (before ++ run ++ after)).count (OutputLine.hashHeader hash) ≤ 1 :=
  count_hashHeader_le_one_from before run after hash hb hr ha 0 ""

/-! ## Theorems about the layout of the output of `MapDuplicates` -/

/-- C18: every record of the output of `MapDuplicates` has a partner inside the output:
another output record with a different `Name`, the same `Size` and the same `Hash`;
so the output never consists of exactly one record. -/
theorem mapDuplicates_partner_in_output (f : Files) (keys : List String)
    (h : RangeOrder f keys) :
    (∀ y ∈ MapDuplicates f keys, ∃ q ∈ MapDuplicates f keys,
        q.Name ≠ y.Name ∧ q.Size = y.Size ∧ q.Hash = y.Hash) ∧
    ((MapDuplicates f keys).length = 0 ∨ 2 ≤ (MapDuplicates f keys).length) := by
  have key : ∀ y ∈ MapDuplicates f keys, ∃ q ∈ MapDuplicates f keys,
      q.Name ≠ y.Name ∧ q.Size = y.Size ∧ q.Hash = y.Hash := by
    intro y hy
    obtain ⟨x, hx, hxe⟩ := mem_MapDuplicates_dup hy
    obtain ⟨hxf, p, hp, h1, h2, h3⟩ := mem_duplicatesOf.1 hx
    have hpd : p ∈ duplicatesOf f :=
      mem_duplicatesOf.2 ⟨hp, x, hxf, fun e => h1 e.symm, h2.symm, h3.symm⟩
    obtain ⟨q, hq, hqe⟩ := exists_in_MapDuplicates h hpd
    refine ⟨q, hq, ?_, ?_, ?_⟩
    · rw [eraseId_name hqe, ← eraseId_name hxe]; exact h1
    · rw [eraseId_size hqe, ← eraseId_size hxe]; exact h2
    · rw [eraseId_hash hqe, ← eraseId_hash hxe]; exact h3
  refine ⟨key, ?_⟩
  rcases hl : MapDuplicates f keys with _ | ⟨y, _ | ⟨z, rest⟩⟩
  · exact Or.inl rfl
  · exfalso
    obtain ⟨q, hq, hn, _, _⟩ := key y (by rw [hl]; exact List.mem_singleton.2 rfl)
    rw [hl] at hq
    exact hn (congrArg File.Name (List.mem_singleton.1 hq))
  · exact Or.inr (by simp)

/-- Witness of C18 on the scenario catalog. -/
theorem mapDuplicates_partner_in_output_witness :
    RangeOrder scenarioCatalog ["x"] ∧
    ((MapDuplicates scenarioCatalog ["x"]).length = 0 ∨
      2 ≤ (MapDuplicates scenarioCatalog ["x"]).length) :=
  ⟨by decide, (mapDuplicates_partner_in_output scenarioCatalog ["x"] (by decide)).2⟩

theorem hash_run_decomposition (f : Files) (keys : List String)
    (h : RangeOrder f keys) (hash : String) :
    ∃ before run after : List File,
      MapDuplicates f keys = before ++ run ++ after ∧
      (∀ r ∈ before, r.Hash ≠ hash) ∧ (∀ r ∈ run, r.Hash = hash) ∧
      (∀ r ∈ after, r.Hash ≠ hash) ∧
      run.map File.eraseId =
        (f.filter (fun r => decide (hasPartner f r ∧ r.Hash = hash))).map File.eraseId ∧
      run.Pairwise (fun a b => a.id < b.id) := by
  have hfilter : withHash hash (duplicatesOf f) =
      f.filter (fun r => decide (hasPartner f r ∧ r.Hash = hash)) := by
    unfold withHash duplicatesOf
    rw [List.filter_filter]
    apply List.filter_congr
    intro r _
    simp [Bool.and_comm]
  by_cases hm : hash ∈ keys
  · obtain ⟨pre, post, hk⟩ := List.append_of_mem hm
    have hnd : (pre ++ hash :: post).Nodup := hk ▸ h.nodup
    have hpre : hash ∉ pre := fun hin =>
      (List.nodup_append.1 hnd).2.2 hin (List.mem_cons_self _ _)
    have hpost : hash ∉ post :=
      (List.nodup_cons.1 (List.nodup_append.1 hnd).2.1).1
    refine ⟨stamp 1 (pre.flatMap (fun k => withHash k (duplicatesOf f))),
      stamp (1 + ((pre.flatMap (fun k => withHash k (duplicatesOf f))).length : Int))
        (withHash hash (duplicatesOf f)),
      stamp (1 + ((pre.flatMap (fun k => withHash k (duplicatesOf f))).length : Int) +
          ((withHash hash (duplicatesOf f)).length : Int))
        (post.flatMap (fun k => withHash k (duplicatesOf f))), ?_, ?_, ?_, ?_, ?_, ?_⟩
    · rw [hk, MapDuplicates_split, List.flatMap_cons, stamp_append, List.append_assoc]
    · intro r hr he
      exact hpre (he ▸ hash_mem_of_mem_stamp_flatMap hr)
    · intro r hr
      obtain ⟨x, hx, he⟩ := mem_stamp hr
      rw [← eraseId_hash he]
      exact (mem_withHash hx).2
    · intro r hr he
      exact hpost (he ▸ hash_mem_of_mem_stamp_flatMap hr)
    · rw [map_eraseId_stamp, hfilter]
    · exact pairwise_id_stamp _ _
  · refine ⟨MapDuplicates f keys, [], [], by simp, ?_, by simp, by simp, ?_, List.Pairwise.nil⟩
    · intro r hr he
      rw [MapDuplicates_eq] at hr
      exact hm (he ▸ hash_mem_of_mem_stamp_flatMap hr)
    · rw [← hfilter]
      have hnil : withHash hash (duplicatesOf f) = [] := by
        apply List.filter_eq_nil_iff.2
        intro x hx
        simp only [decide_eq_true_eq]
        intro hxh
        exact hm ((h.mem_iff hash).2 ⟨x, hx, hxh⟩)
      rw [hnil]

/-- C19: in the output of `MapDuplicates` the records that share one `Hash` occupy
consecutive positions: the output is a stretch without that hash, then the run of
the records with that hash, then a stretch without it.  The run lists the records
of the catalog that have a partner and carry the hash, in catalog order, and its ids
increase along it.  Hence `PrintDuplicates` writes the header of a hash at most
once. -/
theorem mapDuplicates_hash_run_order (f : Files) (keys : List String)
    (h : RangeOrder f keys) (hash : String) :
    (∃ before run after : List File,
      MapDuplicates f keys = before ++ run ++ after ∧
      (∀ r ∈ before, r.Hash ≠ hash) ∧ (∀ r ∈ run, r.Hash = hash) ∧
      (∀ r ∈ after, r.Hash ≠ hash) ∧
      run.map File.eraseId =
        (f.filter (fun r => decide (hasPartner f r ∧ r.Hash = hash))).map File.eraseId ∧
      run.Pairwise (fun a b => a.id < b.id)) ∧
    (PrintDuplicates (MapDuplicates f keys)).count (OutputLine.hashHeader hash) ≤ 1 := by
  have hex := hash_run_decomposition f keys h hash
  refine ⟨hex, ?_⟩
  obtain ⟨before, run, after, hout, hb, hr, ha, _, _⟩ := hex
  rw [hout]
  exact count_hashHeader_le_one before run after hash hb hr ha

/-- Witness of C19 on the catalog of two duplicate sets, for the digest `x`. -/
theorem mapDuplicates_hash_run_order_witness :
    RangeOrder twoGroups ["y", "x"] ∧
    (PrintDuplicates (MapDuplicates twoGroups ["y", "x"])).count (OutputLine.hashHeader "x") ≤ 1 :=
  ⟨by decide, (mapDuplicates_hash_run_order twoGroups ["y", "x"] (by decide) "x").2⟩

/-- C16 fails on the code: the ids follow the order in which `range` presents the keys
of a Go map, which the catalog does not determine.  The catalog `threeGroups` is
what `Sort(Descending)` leaves (the set of `b` first, then the set of `d`, both of
two bytes, then the set of `f` of one byte).  When `range` presents the keys in the
order `x`, `z`, `y`, the set of `b`, first in the catalog, receives the ids 5 and 6
and the set of `d` the ids 1 and 2, and the listing shows the sizes 2, 1, 2; when
the order is `y`, `x`, `z`, the same catalog receives other ids.  Likewise for the
catalog `twoGroups`, which is what `Sort(Ascending)` leaves. -/
theorem mapDuplicates_ids_depend_on_range_order :
    (Files.Sort threeGroups Descending = threeGroups ∧
      RangeOrder threeGroups ["x", "z", "y"] ∧ RangeOrder threeGroups ["y", "x", "z"] ∧
      (MapDuplicates threeGroups ["x", "z", "y"]).map (fun r => (r.Name, r.id)) =
        [("d", 1), ("c", 2), ("f", 3), ("e", 4), ("b", 5), ("a", 6)] ∧
      (MapDuplicates threeGroups ["y", "x", "z"]).map (fun r => (r.Name, r.id)) =
        [("b", 1), ("a", 2), ("d", 3), ("c", 4), ("f", 5), ("e", 6)] ∧
      PrintDuplicates (MapDuplicates threeGroups ["x", "z", "y"]) =
        [OutputLine.sizeHeader 2, OutputLine.hashHeader "x",
         OutputLine.entry 1 "d", OutputLine.entry 2 "c",
         OutputLine.sizeHeader 1, OutputLine.hashHeader "z",
         OutputLine.entry 3 "f", OutputLine.entry 4 "e",
         OutputLine.sizeHeader 2, OutputLine.hashHeader "y",
         OutputLine.entry 5 "b", OutputLine.entry 6 "a"]) ∧
    (Files.Sort twoGroups Ascending = twoGroups ∧
      RangeOrder twoGroups ["y", "x"] ∧ RangeOrder twoGroups ["x", "y"] ∧
      twoGroups.map File.Name = ["a", "b", "c", "d"] ∧
      (MapDuplicates twoGroups ["y", "x"]).map (fun r => (r.Name, r.id)) =
        [("c", 1), ("d", 2), ("a", 3), ("b", 4)] ∧
      (MapDuplicates twoGroups ["x", "y"]).map (fun r => (r.Name, r.id)) =
        [("a", 1), ("b", 2), ("c", 3), ("d", 4)] ∧
      MapDuplicates twoGroups ["y", "x"] ≠ MapDuplicates twoGroups ["x", "y"]) := by
  have h3 : Files.Sort threeGroups Descending = threeGroups :=
    sliceSorted_unique_desc (by decide)
      (sliceSorted_sort_descending threeGroups Descending (by decide))
      ⟨List.Perm.refl _, by
        simp [threeGroups, NewFile, descLess]
        decide⟩
  have h2 : Files.Sort twoGroups Ascending = twoGroups :=
    sliceSorted_unique_asc (by decide) (sliceSorted_sort_ascending twoGroups)
      ⟨List.Perm.refl _, by
        simp [twoGroups, NewFile, ascLess]
        decide⟩
  exact ⟨⟨h3, by decide, by decide, by decide, by decide, by decide⟩,
    ⟨h2, by decide, by decide, by decide, by decide, by decide, by decide⟩⟩

/-- What the code does fix: the ids follow the order in which `range` presents the keys.
When the key order splits into a first and a second part, every output record whose
`Hash` lies in the first part has a smaller id than every output record whose
`Hash` lies in the second part. -/
theorem ids_follow_key_order (f : Files) (keys pre post : List String)
    (h : RangeOrder f keys) (hk : keys = pre ++ post) :
    ∀ a ∈ MapDuplicates f keys, ∀ b ∈ MapDuplicates f keys,
      a.Hash ∈ pre → b.Hash ∈ post → a.id < b.id := by
  intro a ha b hb hap hbp
  have hnd : (pre ++ post).Nodup := hk ▸ h.nodup
  have hdisj : ∀ k, k ∈ pre → k ∈ post → False :=
    fun k h1 h2 => (List.nodup_append.1 hnd).2.2 h1 h2
  rw [hk, MapDuplicates_split] at ha hb
  rcases List.mem_append.1 ha with ha1 | ha2
  · rcases List.mem_append.1 hb with hb1 | hb2
    · exact absurd hbp (fun hbp2 => hdisj _ (hash_mem_of_mem_stamp_flatMap hb1) hbp2)
    · have h1 := (id_bounds_of_mem_stamp ha1).2
      have h2 := (id_bounds_of_mem_stamp hb2).1
      omega
  · exact absurd hap (fun hap2 => hdisj _ hap2 (hash_mem_of_mem_stamp_flatMap ha2))

/-! ## Theorems about the two directions of `Sort` -/

/-- C20: for a catalog with pairwise distinct paths, `Sort(Descending)` is exactly the
reverse of `Sort(Ascending)`. -/
theorem sort_descending_eq_reverse_ascending (f : Files) (hf : (f.map File.Name).Nodup) :
    Files.Sort f Descending = (Files.Sort f Ascending).reverse := by
  have hasc := sliceSorted_sort_ascending f
  have hrev : SliceSorted descLess f (Files.Sort f Ascending).reverse := by
    refine ⟨(List.reverse_perm _).trans hasc.1, ?_⟩
    rw [List.pairwise_reverse]
    refine hasc.2.imp ?_
    intro a b hab
    rw [← Bool.not_eq_true, ascLess_iff] at hab
    rw [← Bool.not_eq_true, descLess_iff]
    exact hab
  exact sliceSorted_unique_desc hf (sliceSorted_sort_descending f Descending (by decide)) hrev

/-- Witness of C20 on the scenario catalog. -/
theorem sort_descending_eq_reverse_ascending_witness :
    (scenarioCatalog.map File.Name).Nodup ∧
    Files.Sort scenarioCatalog Descending = (Files.Sort scenarioCatalog Ascending).reverse :=
  ⟨by decide, sort_descending_eq_reverse_ascending scenarioCatalog (by decide)⟩

/-! ## Lemmas about `ScanSortingOption` -/

theorem scanSortingLoop_skip (wrong rest : List (Option Int)) (v : Int)
    (hv : v ≠ 1 ∧ v ≠ 2) (hw : ∀ w ∈ wrong, w ≠ some 1 ∧ w ≠ some 2) (c : Int) :
    scanSortingLoop (wrong ++ some c :: rest) v = scanSortingLoop (some c :: rest) v ∨
      ∃ u : Int, (u ≠ 1 ∧ u ≠ 2) ∧
        scanSortingLoop (wrong ++ some c :: rest) v = scanSortingLoop (some c :: rest) u := by
  induction wrong generalizing v with
  | nil => exact Or.inl rfl
  | cons w ws ih =>
    have hws : ∀ x ∈ ws, x ≠ some 1 ∧ x ≠ some 2 := fun x hx => hw x (List.mem_cons_of_mem _ hx)
    have hw1 := hw w (List.mem_cons_self _ _)
    have hu : w.getD v ≠ 1 ∧ w.getD v ≠ 2 := by
      cases w with
      | none => exact hv
      | some x =>
        simp only [Option.getD_some]
        exact ⟨fun e => hw1.1 (by rw [e]), fun e => hw1.2 (by rw [e])⟩
    have hstep : scanSortingLoop ((w :: ws) ++ some c :: rest) v =
        scanSortingLoop (ws ++ some c :: rest) (w.getD v) := by
      show scanSortingLoop (w :: (ws ++ some c :: rest)) v = _
      rw [scanSortingLoop, if_pos hv]
    rw [hstep]
    rcases ih (w.getD v) hu hws with h | ⟨u, hu2, h⟩
    · exact Or.inr ⟨w.getD v, hu, h⟩
    · exact Or.inr ⟨u, hu2, h⟩

theorem scanSortingLoop_accept (rest : List (Option Int)) (u c : Int) (hu : u ≠ 1 ∧ u ≠ 2)
    (hc : c = 1 ∨ c = 2) : scanSortingLoop (some c :: rest) u = some (c - 1) := by
  have hc2 : ¬ (c ≠ 1 ∧ c ≠ 2) := by
    rcases hc with h | h <;> simp [h]
  cases rest with
  | nil => simp only [scanSortingLoop, if_pos hu, Option.getD_some, if_neg hc2]
  | cons r rs => simp only [scanSortingLoop, if_pos hu, Option.getD_some, if_neg hc2]

theorem ScanSortingOption_choice (wrong rest : List (Option Int)) (c : Int)
    (hw : ∀ w ∈ wrong, w ≠ some 1 ∧ w ≠ some 2) (hc : c = 1 ∨ c = 2) :
    ScanSortingOption (wrong ++ some c :: rest) = some (c - 1) := by
  unfold ScanSortingOption
  rcases scanSortingLoop_skip wrong rest 0 (by decide) hw c with h | ⟨u, hu, h⟩
  · rw [h]
    exact scanSortingLoop_accept rest 0 c (by decide) hc
  · rw [h]
    exact scanSortingLoop_accept rest u c hu hc

/-! ## Theorems about the sort choice -/

/-- C17: the sort choice selects the direction as documented.  Whatever rejected
entries come first, `ScanSortingOption` returns `Descending` for the choice 1 and
`Ascending` for the choice 2; `Sort` with the first value is the descending sort
and leaves the catalog in descending order, `Sort` with the second is the ascending
sort and leaves it in ascending order; and every `SortOption` other than
`Ascending` makes `Sort` behave as `Descending`. -/
theorem sort_choice_selects_direction (wrong rest : List (Option Int)) (f : Files)
    (hw : ∀ w ∈ wrong, w ≠ some 1 ∧ w ≠ some 2) :
    (ScanSortingOption (wrong ++ some 1 :: rest) = some Descending ∧
      Files.Sort f Descending = Files.Descending f ∧
      (Files.Sort f Descending).Pairwise DescOrdered) ∧
    (ScanSortingOption (wrong ++ some 2 :: rest) = some Ascending ∧
      Files.Sort f Ascending = Files.Ascending f ∧
      (Files.Sort f Ascending).Pairwise AscOrdered) ∧
    (∀ o : SortOption, o ≠ Ascending → Files.Sort f o = Files.Descending f) := by
  refine ⟨⟨ScanSortingOption_choice wrong rest 1 hw (Or.inl rfl), sort_descending f, ?_⟩,
    ⟨ScanSortingOption_choice wrong rest 2 hw (Or.inr rfl), sort_ascending f, ?_⟩,
    fun o ho => sort_other f o ho⟩
  · rw [sort_descending]
    exact (sliceSorted_descending f).2.imp (fun {a b} hab => descOrdered_of_not_less a b hab)
  · rw [sort_ascending]
    exact (sliceSorted_ascending f).2.imp (fun {a b} hab => ascOrdered_of_not_less a b hab)

/-- Witness of C17: a failed scan and the entry 7 are rejected, then 2 is entered. -/
theorem sort_choice_selects_direction_witness :
    (∀ w ∈ ([none, some 7] : List (Option Int)), w ≠ some 1 ∧ w ≠ some 2) ∧
    ScanSortingOption ([none, some 7] ++ some 2 :: []) = some Ascending :=
  ⟨by decide,
   (sort_choice_selects_direction [none, some 7] [] scenarioCatalog (by decide)).2.1.1⟩

/-! ## Lemmas about the listings -/

theorem printSizesLoop_zero (files : Files) (h : ∀ r ∈ files, r.Size = 0) :
    printSizesLoop files 0 = files.map (fun r => OutputLine.path r.Name) := by
  induction files with
  | nil => rfl
  | cons x xs ih =>
    have hx : wrapInt x.Size = 0 := by
      rw [h x (List.mem_cons_self _ _)]; decide
    have hc : ¬ ((0 : Int) ≠ wrapInt x.Size) := by rw [hx]; simp
    rw [printSizesLoop, if_neg hc, ih (fun r hr => h r (List.mem_cons_of_mem _ hr))]
    rfl

/-! ## Theorems about the listings -/

/-- C13 fails on the code for files of size 0 listed first: `sizeControl` starts at 0,
so `PrintFilesSizes` and `PrintDuplicates` write no `0 bytes` header before a first
record of size 0.  A catalog holding one empty file is listed without any header;
in the size-sorted catalog of an empty file and a file of one byte only the size 1
gets a header; a catalog of empty files only is listed as its paths alone. -/
theorem print_omits_header_of_leading_size_zero :
    PrintFilesSizes [NewFile "empty.txt" 0 emptyDigest] = [OutputLine.path "empty.txt"] ∧
    PrintFilesSizes [NewFile "empty.txt" 0 emptyDigest, NewFile "a.txt" 1 "x"] =
      [OutputLine.path "empty.txt", OutputLine.sizeHeader 1, OutputLine.path "a.txt"] ∧
    PrintDuplicates
        [{ Name := "e1", Size := 0, Hash := emptyDigest, id := 1 },
         { Name := "e2", Size := 0, Hash := emptyDigest, id := 2 }] =
      [OutputLine.hashHeader emptyDigest, OutputLine.entry 1 "e1", OutputLine.entry 2 "e2"] ∧
    (∀ files : Files, (∀ r ∈ files, r.Size = 0) →
      PrintFilesSizes files = files.map (fun r => OutputLine.path r.Name)) := by
  refine ⟨by decide, by decide, by decide, fun files h => printSizesLoop_zero files h⟩

/-! ## Theorems about the selection line -/

/-- C12 fails on the code for a line whose bad piece is no integer: the `break` of
line 174 keeps the ids gathered before it.  For two records the line `1 x` holds the
piece `x`, which is no integer, so the line is not valid; yet the id 1 of that line
is returned and no new line is read.  The sibling branch for a number out of range
does reject the whole line: after `1 9` the next line is read. -/
theorem selection_keeps_ids_before_bad_token :
    atoi (trimSpace "x".data) = none ∧
    ¬ validLine 2 "1 x" ∧
    scanSelection 2 ["1 x", "2"] = some [1] ∧
    scanSelection 2 ["1  2", "2"] = some [1] ∧
    scanSelection 2 ["1 9", "2"] = some [2] ∧
    scanSelection 2 ["x 1", "2"] = some [2] ∧
    (∀ (count : Int) (num : List Char) (rest : List (List Char)) (gathered : List Int),
      atoi (trimSpace num) = none → selectionLoop count (num :: rest) gathered = gathered) := by
  refine ⟨by decide, ?_, by decide, by decide, by decide, by decide, ?_⟩
  · intro h
    obtain ⟨v, hv, _⟩ := h "x".data (by decide)
    have hnone : atoi (trimSpace "x".data) = none := by decide
    rw [hnone] at hv
    exact Option.noConfusion hv
  · intro count num rest gathered h
    rw [selectionLoop, h]

/-! ## Lemmas about `MapFiles` -/

theorem extLoop_spec (before suffix : List Char)
    (hs : ∀ c ∈ suffix, c.toNat ≠ 46 ∧ c.toNat ≠ 47) :
    (∃ (pre suf : List Char) (dot : Char), dot.toNat = 46 ∧
        before.reverse ++ suffix = pre ++ dot :: suf ∧
        (∀ c ∈ suf, c.toNat ≠ 46 ∧ c.toNat ≠ 47) ∧ extLoop before suffix = dot :: suf) ∨
    (extLoop before suffix = [] ∧ ∃ pre last : List Char,
        before.reverse ++ suffix = pre ++ last ∧
        (∀ c ∈ last, c.toNat ≠ 46 ∧ c.toNat ≠ 47) ∧
        (pre = [] ∨ ∃ (front : List Char) (sep : Char), sep.toNat = 47 ∧ pre = front ++ [sep])) := by
  induction before generalizing suffix with
  | nil => exact Or.inr ⟨rfl, [], suffix, rfl, hs, Or.inl rfl⟩
  | cons c b ih =>
    by_cases h47 : c.toNat = 47
    · refine Or.inr ⟨by simp [extLoop, h47], b.reverse ++ [c], suffix, by simp, hs,
        Or.inr ⟨b.reverse, c, h47, rfl⟩⟩
    · by_cases h46 : c.toNat = 46
      · refine Or.inl ⟨b.reverse, suffix, c, h46, by simp, hs, by simp [extLoop, h46]⟩
      · have hs2 : ∀ x ∈ c :: suffix, x.toNat ≠ 46 ∧ x.toNat ≠ 47 := by
          intro x hx
          rcases List.mem_cons.1 hx with hx | hx
          · rw [hx]; exact ⟨h46, h47⟩
          · exact hs x hx
        have hstep : extLoop (c :: b) suffix = extLoop b (c :: suffix) := by
          rw [extLoop, if_neg h47, if_neg h46]
        have hlist : (c :: b).reverse ++ suffix = b.reverse ++ c :: suffix := by simp
        rw [hstep, hlist]
        exact ih (c :: suffix) hs2

theorem Ext_spec (path : String) :
    (∃ (pre suf : List Char) (dot : Char), dot.toNat = 46 ∧ path.data = pre ++ dot :: suf ∧
        (∀ c ∈ suf, c.toNat ≠ 46 ∧ c.toNat ≠ 47) ∧ Ext path = String.mk (dot :: suf)) ∨
    (Ext path = "" ∧ ∃ pre last : List Char, path.data = pre ++ last ∧
        (∀ c ∈ last, c.toNat ≠ 46 ∧ c.toNat ≠ 47) ∧
        (pre = [] ∨ ∃ (front : List Char) (sep : Char), sep.toNat = 47 ∧ pre = front ++ [sep])) := by
  have h := extLoop_spec path.data.reverse [] (by simp)
  simp only [List.reverse_reverse, List.append_nil] at h
  rcases h with ⟨pre, suf, dot, h1, h2, h3, h4⟩ | ⟨h1, h2⟩
  · exact Or.inl ⟨pre, suf, dot, h1, h2, h3, by rw [Ext, h4]⟩
  · exact Or.inr ⟨by rw [Ext, h1], h2⟩

theorem visitEntry_ok (extention : String) (v : Visit) (files : Files)
    (hv : v.walkErr = none ∧ (v.isDir = false → v.statSize.isSome = true ∧ v.digest.isSome = true)) :
    visitEntry extention v files =
      WalkStep.next
        (if v.isDir = false ∧ passesFilter extention v.path then files ++ [recordOf v]
          else files) := by
  obtain ⟨h1, h23⟩ := hv
  unfold visitEntry
  rw [h1]
  by_cases hd : v.isDir = true
  · simp [hd]
  · have hd2 : v.isDir = false := by simpa using hd
    obtain ⟨size, hsize⟩ := Option.isSome_iff_exists.1 (h23 hd2).1
    obtain ⟨hash, hhash⟩ := Option.isSome_iff_exists.1 (h23 hd2).2
    by_cases hp : passesFilter extention v.path
    · have hc : ¬ (extention ≠ "" ∧ Ext v.path ≠ "." ++ extention) := by
        unfold passesFilter at hp
        tauto
      simp only [hd2, Bool.not_false, if_true, if_neg hc, hhash, hsize, true_and, if_pos hp,
        recordOf, Option.getD_some]
    · have hc : extention ≠ "" ∧ Ext v.path ≠ "." ++ extention := by
        unfold passesFilter at hp
        tauto
      simp only [hd2, Bool.not_false, if_true, if_pos hc, true_and, if_neg hp]

theorem walkDir_ok (extention : String) (visits : List Visit) (files : Files)
    (hok : ∀ v ∈ visits,
      v.walkErr = none ∧ (v.isDir = false → v.statSize.isSome = true ∧ v.digest.isSome = true)) :
    walkDir extention visits files =
      some (files ++
        (visits.filter
          (fun v => decide (v.isDir = false ∧ passesFilter extention v.path))).map recordOf,
        none) := by
  induction visits generalizing files with
  | nil => simp [walkDir]
  | cons v vs ih =>
    rw [walkDir, visitEntry_ok extention v files (hok v (List.mem_cons_self _ _))]
    simp only
    rw [ih _ (fun w hw => hok w (List.mem_cons_of_mem _ hw))]
    by_cases hc : v.isDir = false ∧ passesFilter extention v.path
    · rw [if_pos hc, List.filter_cons_of_pos (by simpa using hc)]
      simp
    · rw [if_neg hc, List.filter_cons_of_neg (by simpa using hc)]

theorem visitEntry_stop {extention : String} {v : Visit} {files files1 : Files}
    {err : WalkError} (h : visitEntry extention v files = WalkStep.stop files1 err) :
    files1 = files := by
  unfold visitEntry at h
  split at h
  · simp only [WalkStep.stop.injEq] at h
    exact h.1.symm
  · split_ifs at h
    · split at h
      · simp only [WalkStep.stop.injEq] at h
        exact h.1.symm
      · split at h <;> simp at h

theorem walkDir_error {extention : String} {visits : List Visit} {files0 files : Files}
    {err : WalkError} (h : walkDir extention visits files0 = some (files, some err)) :
    ∃ (pre : List Visit) (bad : Visit) (post : List Visit),
      visits = pre ++ bad :: post ∧ walkDir extention pre files0 = some (files, none) ∧
      visitEntry extention bad files = WalkStep.stop files err := by
  induction visits generalizing files0 with
  | nil => simp [walkDir] at h
  | cons v vs ih =>
    rw [walkDir] at h
    rcases hstep : visitEntry extention v files0 with files1 | ⟨files1, e⟩ | _
    · rw [hstep] at h
      obtain ⟨pre, bad, post, h1, h2, h3⟩ := ih h
      refine ⟨v :: pre, bad, post, by rw [h1]; rfl, ?_, h3⟩
      rw [walkDir, hstep]
      exact h2
    · rw [hstep] at h
      simp only [Option.some.injEq, Prod.mk.injEq] at h
      obtain ⟨hf, he⟩ := h
      have h0 := visitEntry_stop hstep
      subst hf
      subst he
      subst h0
      exact ⟨[], v, vs, rfl, rfl, hstep⟩
    · rw [hstep] at h
      simp at h

theorem visitEntry_next {extention : String} {v : Visit} {files files1 : Files}
    (h : visitEntry extention v files = WalkStep.next files1) :
    files1 =
      if v.isDir = false ∧ passesFilter extention v.path then files ++ [recordOf v]
        else files := by
  unfold visitEntry at h
  split at h
  · simp at h
  · by_cases hd : v.isDir = true
    · simp only [hd, Bool.not_true, Bool.false_eq_true, if_false, WalkStep.next.injEq] at h
      simp [hd, h]
    · have hd2 : v.isDir = false := by simpa using hd
      simp only [hd2, Bool.not_false, if_true] at h
      by_cases hp : passesFilter extention v.path
      · have hc : ¬ (extention ≠ "" ∧ Ext v.path ≠ "." ++ extention) := by
          unfold passesFilter at hp
          tauto
        rw [if_neg hc] at h
        rcases hdig : v.digest with _ | hashString
        · rw [hdig] at h
          simp at h
        · rw [hdig] at h
          rcases hst : v.statSize with _ | fileSize
          · rw [hst] at h
            simp at h
          · rw [hst] at h
            simp only [WalkStep.next.injEq] at h
            rw [if_pos ⟨hd2, hp⟩, ← h]
            simp [recordOf, hdig, hst]
      · have hc : extention ≠ "" ∧ Ext v.path ≠ "." ++ extention := by
          unfold passesFilter at hp
          tauto
        rw [if_pos hc] at h
        simp only [WalkStep.next.injEq] at h
        rw [if_neg (fun hh => hp hh.2), h]

theorem visitEntry_stop_cause {extention : String} {v : Visit} {files files1 : Files}
    {err : WalkError} (h : visitEntry extention v files = WalkStep.stop files1 err) :
    v.walkErr = some err ∨
      (v.walkErr = none ∧ v.isDir = false ∧ passesFilter extention v.path ∧
        v.digest = none ∧ err = WalkError.read v.path) := by
  unfold visitEntry at h
  rcases hw : v.walkErr with _ | e
  · rw [hw] at h
    right
    by_cases hd : v.isDir = true
    · simp [hd] at h
    · have hd2 : v.isDir = false := by simpa using hd
      simp only [hd2, Bool.not_false, if_true] at h
      by_cases hp : passesFilter extention v.path
      · have hc : ¬ (extention ≠ "" ∧ Ext v.path ≠ "." ++ extention) := by
          unfold passesFilter at hp
          tauto
        rw [if_neg hc] at h
        rcases hdig : v.digest with _ | hashString
        · rw [hdig] at h
          simp only [WalkStep.stop.injEq] at h
          exact ⟨rfl, hd2, hp, rfl, h.2.symm⟩
        · rw [hdig] at h
          rcases hst : v.statSize with _ | fileSize
          · rw [hst] at h
            simp at h
          · rw [hst] at h
            simp at h
      · have hc : extention ≠ "" ∧ Ext v.path ≠ "." ++ extention := by
          unfold passesFilter at hp
          tauto
        rw [if_pos hc] at h
        simp at h
  · rw [hw] at h
    simp only [WalkStep.stop.injEq] at h
    left
    rw [h.2]

theorem walkDir_done {extention : String} {visits : List Visit} {files0 files : Files}
    (h : walkDir extention visits files0 = some (files, none)) :
    files = files0 ++
      (visits.filter
        (fun v => decide (v.isDir = false ∧ passesFilter extention v.path))).map recordOf := by
  induction visits generalizing files0 with
  | nil =>
    simp only [walkDir, Option.some.injEq, Prod.mk.injEq, and_true] at h
    simp [h]
  | cons v vs ih =>
    rw [walkDir] at h
    rcases hstep : visitEntry extention v files0 with files1 | ⟨files1, e⟩ | _
    · rw [hstep] at h
      have h1 := visitEntry_next hstep
      have h2 := ih h
      by_cases hc : v.isDir = false ∧ passesFilter extention v.path
      · rw [if_pos hc] at h1
        rw [h2, h1, List.filter_cons_of_pos (by simpa using hc)]
        simp
      · rw [if_neg hc] at h1
        rw [h2, h1, List.filter_cons_of_neg (by simpa using hc)]
    · rw [hstep] at h
      simp at h
    · rw [hstep] at h
      simp at h

theorem mem_gathered {extention : String} {visits : List Visit} {r : File} :
    r ∈ (visits.filter
        (fun v => decide (v.isDir = false ∧ passesFilter extention v.path))).map recordOf ↔
      ∃ v ∈ visits, v.isDir = false ∧ passesFilter extention v.path ∧ recordOf v = r := by
  simp only [List.mem_map, List.mem_filter, decide_eq_true_eq]
  constructor
  · rintro ⟨v, ⟨hv, hd, hp⟩, hr⟩
    exact ⟨v, hv, hd, hp, hr⟩
  · rintro ⟨v, hv, hd, hp, hr⟩
    exact ⟨v, ⟨hv, hd, hp⟩, hr⟩

theorem recordOf_name (v : Visit) : (recordOf v).Name = v.path := rfl

/-! ## Theorems about `MapFiles` -/

/-- C14: when every read of the walk succeeds, `MapFiles` returns a catalog and no
error, and the catalog holds a record for a visited file exactly when the filter is
empty or `filepath.Ext` of its path equals the filter with a dot in front, compared
character by character; a visited directory has no record.  `filepath.Ext` is the
suffix of the last path element from its final dot on, or empty when that element
has no dot. -/
theorem mapFiles_filters_by_extension (visits : List Visit) (extention : String)
    (hok : ∀ v ∈ visits,
      v.walkErr = none ∧ (v.isDir = false → v.statSize.isSome = true ∧ v.digest.isSome = true))
    (hpaths : (visits.map Visit.path).Nodup) :
    (∃ files : Files, MapFiles visits extention = some (files, none) ∧
      (∀ v ∈ visits, v.isDir = true → ¬ ∃ r ∈ files, r.Name = v.path) ∧
      (∀ v ∈ visits, v.isDir = false →
        ((∃ r ∈ files, r.Name = v.path) ↔
          (extention = "" ∨ Ext v.path = "." ++ extention)))) ∧
    (∀ path : String,
      (∃ (pre suf : List Char) (dot : Char), dot.toNat = 46 ∧ path.data = pre ++ dot :: suf ∧
          (∀ c ∈ suf, c.toNat ≠ 46 ∧ c.toNat ≠ 47) ∧ Ext path = String.mk (dot :: suf)) ∨
      (Ext path = "" ∧ ∃ pre last : List Char, path.data = pre ++ last ∧
          (∀ c ∈ last, c.toNat ≠ 46 ∧ c.toNat ≠ 47) ∧
          (pre = [] ∨
            ∃ (front : List Char) (sep : Char), sep.toNat = 47 ∧ pre = front ++ [sep]))) := by
  refine ⟨⟨(visits.filter
      (fun v => decide (v.isDir = false ∧ passesFilter extention v.path))).map recordOf,
    ?_, ?_, ?_⟩, Ext_spec⟩
  · unfold MapFiles
    rw [walkDir_ok extention visits [] hok, List.nil_append]
  · rintro v hv hd ⟨r, hr, hn⟩
    obtain ⟨w, hw, hwd, _, hwr⟩ := mem_gathered.1 hr
    have hpath : w.path = v.path := by rw [← recordOf_name w, hwr, hn]
    have hwv : w = v := List.inj_on_of_nodup_map hpaths hw hv hpath
    rw [hwv, hd] at hwd
    exact Bool.noConfusion hwd
  · intro v hv hd
    constructor
    · rintro ⟨r, hr, hn⟩
      obtain ⟨w, hw, _, hwp, hwr⟩ := mem_gathered.1 hr
      have hpath : w.path = v.path := by rw [← recordOf_name w, hwr, hn]
      have hwv : w = v := List.inj_on_of_nodup_map hpaths hw hv hpath
      rw [hwv] at hwp
      exact hwp
    · intro hp
      exact ⟨recordOf v, mem_gathered.2 ⟨v, hv, hd, hp, rfl⟩, rfl⟩

/-- Witness of C14: a walk over `d` with the filter `txt` keeps `d/a.txt` only; the
extension `.TXT` of `d/b.TXT` differs from `.txt`. -/
theorem mapFiles_filters_by_extension_witness :
    (∀ v ∈ sampleWalk,
      v.walkErr = none ∧ (v.isDir = false → v.statSize.isSome = true ∧ v.digest.isSome = true)) ∧
    (sampleWalk.map Visit.path).Nodup ∧
    MapFiles sampleWalk "txt" = some ([NewFile "d/a.txt" 1 "x"], none) ∧
    Ext "d/b.TXT" = ".TXT" ∧
    ∃ files : Files, MapFiles sampleWalk "txt" = some (files, none) ∧
      (∀ v ∈ sampleWalk, v.isDir = true → ¬ ∃ r ∈ files, r.Name = v.path) ∧
      (∀ v ∈ sampleWalk, v.isDir = false →
        ((∃ r ∈ files, r.Name = v.path) ↔ ("txt" = "" ∨ Ext v.path = "." ++ "txt"))) :=
  ⟨by decide, by decide, by decide, by decide,
   (mapFiles_filters_by_extension sampleWalk "txt" (by decide) (by decide)).1⟩

/-- C15, as the specification states it, fails: in a walk that reads `d/a.txt` and then
meets the unreadable `d/b.txt`, `MapFiles` returns the error together with the
catalog that holds the record of `d/a.txt`. -/
theorem mapFiles_error_returns_gathered_records :
    MapFiles brokenWalk "txt" =
      some ([NewFile "d/a.txt" 1 "x"], some (WalkError.read "d/b.txt")) ∧
    (∀ files err, MapFiles brokenWalk "txt" = some (files, some err) → files ≠ []) := by
  refine ⟨by decide, ?_⟩
  intro files err h
  have h2 : MapFiles brokenWalk "txt" =
      some ([NewFile "d/a.txt" 1 "x"], some (WalkError.read "d/b.txt")) := by decide
  rw [h2] at h
  simp only [Option.some.injEq, Prod.mk.injEq] at h
  rw [← h.1]
  exact List.cons_ne_nil _ _

/-- C15, amended: when `MapFiles` returns an error, the walk splits into the visits
before the failing one, the failing visit and the rest; the catalog returned with
the error is the one gathered from the visits before the failing one, that is the
records of the files among them that pass the filter, whether any or none; `main`
uses none of it: it writes the message `Directory is not specified` and nothing
else. -/
theorem mapFiles_error_catalog_unused (visits : List Visit) (extention : String)
    (files : Files) (err : WalkError)
    (h : MapFiles visits extention = some (files, some err)) :
    (∃ (pre : List Visit) (bad : Visit) (post : List Visit),
      visits = pre ++ bad :: post ∧
      MapFiles pre extention = some (files, none) ∧
      visitEntry extention bad files = WalkStep.stop files err ∧
      (bad.walkErr = some err ∨
        (bad.walkErr = none ∧ bad.isDir = false ∧ passesFilter extention bad.path ∧
          bad.digest = none ∧ err = WalkError.read bad.path)) ∧
      files =
        (pre.filter
          (fun v => decide (v.isDir = false ∧ passesFilter extention v.path))).map recordOf) ∧
    (∀ sortingOption : Int,
      mainListing visits extention sortingOption =
        some [OutputLine.message "Directory is not specified"]) := by
  constructor
  · obtain ⟨pre, bad, post, h1, h2, h3⟩ := walkDir_error h
    refine ⟨pre, bad, post, h1, h2, h3, visitEntry_stop_cause h3, ?_⟩
    have := walkDir_done h2
    simpa using this
  · intro sortingOption
    unfold mainListing
    rw [h]

/-- Witness of C15 on the walk with the unreadable `d/b.txt`. -/
theorem mapFiles_error_catalog_unused_witness :
    MapFiles brokenWalk "txt" =
      some ([NewFile "d/a.txt" 1 "x"], some (WalkError.read "d/b.txt")) ∧
    mainListing brokenWalk "txt" 0 = some [OutputLine.message "Directory is not specified"] :=
  ⟨by decide,
   (mapFiles_error_catalog_unused brokenWalk "txt" [NewFile "d/a.txt" 1 "x"]
      (WalkError.read "d/b.txt") (by decide)).2 0⟩

end DuplicateFileHandler
